import Mathlib

/-!
# CodeEditor-v1: the analysis functions of `script.js`

A shallow embedding of the text-analysis functions of `script.js`
(`findFunctionBounds`, `drawFlowMappings`, `computeComplexity`,
`showGhostSuggestion`, `booleanSimplifier`, `restoreSnapshot`) together with the
fragment of ECMAScript regular expressions those functions use.

JavaScript strings are sequences of UTF-16 code units; they are modelled as
lists of natural numbers.  The regular expressions of the source carry no `u`,
`i`, `m` or `s` flag, so matching works on code units, `$` is the end of the
input and `.` excludes the four line terminators.
-/

namespace CodeEditor

/-! ## Strings -/

/-- A JavaScript string: its UTF-16 code units. -/
abbrev JStr := List Nat

/-- UTF-16 encoding of a Lean string (used to write literals). -/
def utf16 (s : String) : JStr :=
  s.toList.flatMap fun c =>
    if c.toNat < 65536 then [c.toNat]
    else [55296 + (c.toNat - 65536) / 1024, 56320 + (c.toNat - 65536) % 1024]

/-- The class `\w` (no `i`/`u` flag): `[A-Za-z0-9_]`. -/
def isWordChar (c : Nat) : Bool :=
  (48 ≤ c && c ≤ 57) || (65 ≤ c && c ≤ 90) || c == 95 || (97 ≤ c && c ≤ 122)

/-- ECMAScript LineTerminator: LF, CR, LS, PS. -/
def isLineTerminator (c : Nat) : Bool :=
  c == 10 || c == 13 || c == 8232 || c == 8233

/-- The class `\s`, which is also the set removed by `String.prototype.trim`:
WhiteSpace (TAB, VT, FF, SP, NBSP, ZWNBSP and the Unicode space separators)
together with LineTerminator. -/
def isSpace (c : Nat) : Bool :=
  c == 9 || c == 11 || c == 12 || c == 32 || c == 160 || c == 5760 ||
  (8192 ≤ c && c ≤ 8202) || c == 8239 || c == 8287 || c == 12288 || c == 65279 ||
  isLineTerminator c

/-! ## The regular-expression fragment used by `script.js` -/

/-- Single-character classes: `.`, `\w`, `\s`. -/
inductive Cls where
  | dot
  | word
  | space
  deriving DecidableEq, Repr

/-- Membership test of a class. -/
def Cls.test : Cls → Nat → Bool
  | .dot, c => !isLineTerminator c
  | .word, c => isWordChar c
  | .space, c => isSpace c

/-- Regular expressions.  Every quantifier of the source (`.*`, `\s*`, `\s+`,
`\w+`) is greedy and applies to a single-character class, which is what `many`
(the `*` of a class) covers; `x+` is `x` followed by `x*`. -/
inductive Regex where
  | eps
  | chr (c : Nat)
  | cls (k : Cls)
  | many (k : Cls)
  | wordB
  | eoi
  | seq (a b : Regex)
  | alt (a b : Regex)
  | group (i : Nat) (a : Regex)
  deriving DecidableEq, Repr

/-- A position of the matcher inside the input: the code unit before it (for
`\b`), its offset, the input from there on, and the captures made so far as
(group number, start offset, captured text), most recent first. -/
structure MState where
  prev : Option Nat
  pos : Nat
  rest : JStr
  caps : List (Nat × Nat × JStr)
  deriving DecidableEq, Repr

/-- Is the optional code unit a word character (`IsWordChar` of the standard:
false outside the input). -/
def wordAt : Option Nat → Bool
  | none => false
  | some c => isWordChar c

/-- The assertion `\b`: exactly one side of the position is a word character. -/
def atBoundary (s : MState) : Bool :=
  wordAt s.prev != wordAt s.rest.head?

/-- Greedy `k*`: the positions reachable by consuming a run of class `k`,
longest first (the order in which a backtracking matcher tries them). -/
def runMany (k : Cls) (caps : List (Nat × Nat × JStr)) : Option Nat → Nat → JStr → List MState
  | prev, pos, [] => [⟨prev, pos, [], caps⟩]
  | prev, pos, x :: xs =>
    if k.test x then runMany k caps (some x) (pos + 1) xs ++ [⟨prev, pos, x :: xs, caps⟩]
    else [⟨prev, pos, x :: xs, caps⟩]

/-- Backtracking matcher: all the end positions of a match of the expression
starting at the given position, in the priority order of ECMAScript (leftmost
alternative first, greedy quantifiers longest first).  The head of the list is
the match `exec` reports. -/
def run : Regex → MState → List MState
  | .eps, s => [s]
  | .chr c, s =>
    match s.rest with
    | [] => []
    | x :: xs => if x = c then [⟨some x, s.pos + 1, xs, s.caps⟩] else []
  | .cls k, s =>
    match s.rest with
    | [] => []
    | x :: xs => if k.test x then [⟨some x, s.pos + 1, xs, s.caps⟩] else []
  | .many k, s => runMany k s.caps s.prev s.pos s.rest
  | .wordB, s => if atBoundary s then [s] else []
  | .eoi, s => if s.rest.isEmpty then [s] else []
  | .seq a b, s => (run a s).flatMap fun m => run b m
  | .alt a b, s => run a s ++ run b s
  | .group i a, s =>
    (run a s).map fun e => { e with caps := (i, s.pos, s.rest.take (e.pos - s.pos)) :: e.caps }

/-- Concatenation of a list of expressions. -/
def Regex.cat : List Regex → Regex
  | [] => .eps
  | r :: rs => .seq r (Regex.cat rs)

/-- Alternation `r | r₁ | r₂ | …`, leftmost first. -/
def Regex.alts : Regex → List Regex → Regex
  | r, [] => r
  | r, r' :: rs => .alt r (Regex.alts r' rs)

/-- The literal text of a string, code unit by code unit. -/
def Regex.lit : JStr → Regex
  | [] => .eps
  | c :: cs => .seq (.chr c) (Regex.lit cs)

/-- The quantifier `k+` on a class: one `k`, then `k*`. -/
def Regex.many1 (k : Cls) : Regex := .seq (.cls k) (.many k)

/-! ## `exec`, `test`, and the global iteration of `match` / `matchAll` -/

/-- The search loop of `RegExpBuiltinExec`: try the pattern at the current
offset, then at each later one, up to and including the end of the input.
Returns the offset of the match and the matcher's final position. -/
def execFrom (r : Regex) : Option Nat → Nat → JStr → Option (Nat × MState)
  | prev, pos, [] => (run r ⟨prev, pos, [], []⟩).head?.map fun e => (pos, e)
  | prev, pos, x :: xs =>
    match (run r ⟨prev, pos, x :: xs, []⟩).head? with
    | some e => some (pos, e)
    | none => execFrom r (some x) (pos + 1) xs

/-- The code unit before offset `i` of a text, if any. -/
def prevAt (text : JStr) (i : Nat) : Option Nat :=
  if i = 0 then none else text.get? (i - 1)

/-- The operation `RegExpBuiltinExec` started at `lastIndex`: `none` is the `null` result
(after which `lastIndex` is reset to 0). -/
def exec (r : Regex) (text : JStr) (lastIndex : Nat) : Option (Nat × MState) :=
  if lastIndex > text.length then none
  else execFrom r (prevAt text lastIndex) lastIndex (text.drop lastIndex)

/-- The method `RegExp.prototype.test` of a regex without the `g` flag. -/
def Regex.test (r : Regex) (text : JStr) : Bool :=
  (exec r text 0).isSome

/-- The iteration behind `String.prototype.match` with a `g` regex and behind
`matchAll`: repeated `exec`, `lastIndex` set to the end of each match and
advanced by one more after an empty match. -/
def matchAllLoop (r : Regex) (text : JStr) : Nat → Nat → List (Nat × MState)
  | 0, _ => []
  | fuel + 1, lastIndex =>
    match exec r text lastIndex with
    | none => []
    | some (idx, e) =>
      (idx, e) :: matchAllLoop r text fuel (if e.pos = idx then e.pos + 1 else e.pos)

/-- All matches of a `g` regex in a text, in order: `[...text.matchAll(r)]`,
and the array of `text.match(r)` (empty for `null`).  Each iteration moves
`lastIndex` forward, so `text.length + 2` iterations always suffice. -/
def matchAll (r : Regex) (text : JStr) : List (Nat × MState) :=
  matchAllLoop r text (text.length + 2) 0

/-- The text of capture group `i` of a match (`m[i]`); the empty string stands
for a group that did not take part (none of the patterns below has one). -/
def capText (e : MState) (i : Nat) : JStr :=
  match e.caps.lookup i with
  | some (_, t) => t
  | none => []

/-- The start offset of capture group `i` of a match. -/
def capStart (e : MState) (i : Nat) : Option Nat :=
  (e.caps.lookup i).map fun p => p.1

/-! ## Lines -/

/-- The method `s.split(sep)` for a one-unit separator: the pieces between separators;
the empty string gives one empty piece. -/
def split (sep : Nat) : JStr → List JStr
  | [] => [[]]
  | x :: xs =>
    if x = sep then [] :: split sep xs
    else
      match split sep xs with
      | [] => [[x]]
      | l :: ls => (x :: l) :: ls

/-- The function `getLines()`: `editor.value.split('\n')`. -/
def getLines (value : JStr) : List JStr :=
  split 10 value

/-- The function `caretLine()`:
`editor.value.substring(0, editor.selectionStart).split('\n').length - 1`. -/
def caretLine (value : JStr) (selectionStart : Nat) : Nat :=
  (split 10 (value.take selectionStart)).length - 1

/-! ## `findFunctionBounds` -/

/-- The pattern `/\b(public|private|internal|protected)\b.*\(.*\)/`. -/
def signaturePattern : Regex :=
  .cat [.wordB,
    .group 1 (.alts (.lit (utf16 "public"))
      [.lit (utf16 "private"), .lit (utf16 "internal"), .lit (utf16 "protected")]),
    .wordB, .many .dot, .chr 40, .many .dot, .chr 41]

/-- The element `lines[i]` as an argument of `test`: an index outside the array reads
`undefined`, which `test` converts to the string "undefined". -/
def lineAt (lines : List JStr) (i : Nat) : JStr :=
  (lines.get? i).getD (utf16 "undefined")

/-- Number of open braces of a line: `(line.match(/\x7b/g) || []).length`. -/
def openBraces (line : JStr) : Nat :=
  (matchAll (.chr 123) line).length

/-- Number of close braces of a line: `(line.match(/\x7d/g) || []).length`. -/
def closeBraces (line : JStr) : Nat :=
  (matchAll (.chr 125) line).length

/-- The first loop: `for (i = currentLine; i >= 0; i -= 1)` with its `break`;
the index of the first signature line found going up, if any. -/
def scanStart (lines : List JStr) : Nat → Option Nat
  | 0 => if signaturePattern.test (lineAt lines 0) then some 0 else none
  | i + 1 => if signaturePattern.test (lineAt lines (i + 1)) then some (i + 1) else scanStart lines i

/-- The second loop: `for (i = start; i < lines.length; i += 1)` over the lines
from `i` on, with the running `braces`; `none` when it ends without `break`. -/
def scanEnd (start : Nat) : List JStr → Nat → Int → Option Nat
  | [], _, _ => none
  | l :: ls, i, braces =>
    let braces := braces + openBraces l - closeBraces l
    if i > start ∧ braces = 0 then some i else scanEnd start ls (i + 1) braces

/-- The result record `{ start, end }`. -/
structure Bounds where
  start : Nat
  «end» : Nat
  deriving DecidableEq, Repr

/-- The function `findFunctionBounds(lines, currentLine)`. -/
def findFunctionBounds (lines : List JStr) (currentLine : Nat) : Bounds :=
  let start := (scanStart lines currentLine).getD 0
  let «end» := (scanEnd start (lines.drop start) start 0).getD (lines.length - 1)
  { start := start, «end» := «end» }

/-! ## `drawFlowMappings` -/

/-- The pattern `/\b(?:int|var|bool|string|double)\s+(\w+)\s*=.*/g`. -/
def declarationPattern : Regex :=
  .cat [.wordB,
    .alts (.lit (utf16 "int"))
      [.lit (utf16 "var"), .lit (utf16 "bool"), .lit (utf16 "string"), .lit (utf16 "double")],
    .many1 .space, .group 1 (.many1 .word), .many .space, .chr 61, .many .dot]

/-- The pattern built by `new RegExp("\\b" + varName + "\\b", "g")`; `variable`
is a capture of `\w+`, so its source text denotes itself. -/
def usagePattern (varName : JStr) : Regex :=
  .cat [.wordB, .lit varName, .wordB]

/-- One connector drawn by `drawFlowMappings`: the usage match offset `u.index`
and the two line numbers the curve joins. -/
structure UsageLink where
  index : Nat
  declLine : Nat
  usageLine : Nat
  deriving DecidableEq, Repr

/-- What the body of the `forEach` over the declarations does for one
declaration match: its name, the offset of the match (`decl.index`), the offset
of the name inside the text, and the connectors drawn. -/
structure FlowDecl where
  varName : JStr
  index : Nat
  nameIndex : Option Nat
  links : List UsageLink
  deriving DecidableEq, Repr

/-- The matches `[...text.matchAll(new RegExp(...))].slice(1, 4)`. -/
def usageMatches (text varName : JStr) : List (Nat × MState) :=
  ((matchAll (usagePattern varName) text).drop 1).take 3

/-- The callback of `declarations.slice(0, 8).forEach`. -/
def flowOfDecl (text : JStr) (decl : Nat × MState) : FlowDecl :=
  let varName := capText decl.2 1
  let before := text.take decl.1
  let declLine := (split 10 before).length
  { varName := varName
    index := decl.1
    nameIndex := capStart decl.2 1
    links := (usageMatches text varName).map fun u =>
      { index := u.1, declLine := declLine, usageLine := (split 10 (text.take u.1)).length } }

/-- The declarations `drawFlowMappings` keeps: `declarations.slice(0, 8)`. -/
def retainedDeclarations (text : JStr) : List (Nat × MState) :=
  (matchAll declarationPattern text).take 8

/-- The function `drawFlowMappings()` as a function of the flow toggle and the text: the
declarations processed with the connectors drawn for each (pixel geometry left
out).  Nothing is drawn when the toggle is off. -/
def drawFlowMappings (flowChecked : Bool) (text : JStr) : List FlowDecl :=
  if !flowChecked then []
  else (retainedDeclarations text).map (flowOfDecl text)

/-! ## `computeComplexity` -/

/-- The pattern `/\b(if|for|foreach|while|case|&&|\|\|\?|catch)\b/g`. -/
def keywordPattern : Regex :=
  .cat [.wordB,
    .group 1 (.alts (.lit (utf16 "if"))
      [.lit (utf16 "for"), .lit (utf16 "foreach"), .lit (utf16 "while"), .lit (utf16 "case"),
       .lit (utf16 "&&"), .lit (utf16 "||?"), .lit (utf16 "catch")]),
    .wordB]

/-- The qualitative band written to `brainLoad`. -/
inductive Band where
  | Low
  | Medium
  | High
  deriving DecidableEq, Repr

/-- What `computeComplexity` writes: the gauge value and the band. -/
structure Complexity where
  value : Nat
  band : Band
  deriving DecidableEq, Repr

/-- The function `computeComplexity()` as a function of the text. -/
def computeComplexity (text : JStr) : Complexity :=
  let keywords := (matchAll keywordPattern text).length
  let complexity := 1 + keywords
  { value := complexity
    band := if complexity > 10 then .High else if complexity > 6 then .Medium else .Low }

/-! ## `showGhostSuggestion` -/

/-- The method `String.prototype.trim`. -/
def trim (s : JStr) : JStr :=
  ((s.dropWhile isSpace).reverse.dropWhile isSpace).reverse

/-- The pattern `/\.Where\($/`. -/
def wherePattern : Regex :=
  .cat [.chr 46, .lit (utf16 "Where"), .chr 40, .eoi]

/-- The pattern `/for\s*\($/`. -/
def forPattern : Regex :=
  .cat [.lit (utf16 "for"), .many .space, .chr 40, .eoi]

/-- The pattern `/Console\.WriteLine\($/`. -/
def writeLinePattern : Regex :=
  .cat [.lit (utf16 "Console"), .chr 46, .lit (utf16 "WriteLine"), .chr 40, .eoi]

/-- The completion offered after `.Where(`. -/
def whereCompletion : JStr := utf16 "x => x > 0)"

/-- The completion offered after `for (`. -/
def forCompletion : JStr := utf16 "int i = 0; i < items.Count; i++)"

/-- The completion offered after `Console.WriteLine(`. -/
def writeLineCompletion : JStr := utf16 "\"Debug\" + value)"

/-- The last piece of `left.split('\n')`: `.pop()`. -/
def lastLine (left : JStr) : JStr :=
  (split 10 left).getLastD []

/-- The three successive `if` statements of `showGhostSuggestion`, each
overwriting `suggestion`. -/
def ghostSuggestionOf (currentLine : JStr) : JStr :=
  let suggestion : JStr := []
  let suggestion := if wherePattern.test (trim currentLine) then whereCompletion else suggestion
  let suggestion := if forPattern.test (trim currentLine) then forCompletion else suggestion
  let suggestion := if writeLinePattern.test (trim currentLine) then writeLineCompletion else suggestion
  suggestion

/-- What `showGhostSuggestion` leaves in the ghost element: its text and, when
a suggestion is shown, the (line, column) its position is computed from. -/
structure Ghost where
  text : JStr
  anchor : Option (Nat × Nat)
  deriving DecidableEq, Repr

/-- The function `showGhostSuggestion()` as a function of the text and the cursor. -/
def showGhostSuggestion (value : JStr) (selectionStart : Nat) : Ghost :=
  let left := value.take selectionStart
  let currentLine := lastLine left
  let suggestion := ghostSuggestionOf currentLine
  if suggestion.isEmpty then { text := [], anchor := none }
  else { text := suggestion, anchor := some ((split 10 left).length - 1, currentLine.length) }

/-- The ordered table of the specification: trailing pattern, completion. -/
def ghostTable : List (Regex × JStr) :=
  [(wherePattern, whereCompletion), (forPattern, forCompletion),
   (writeLinePattern, writeLineCompletion)]

/-- First-match-wins over a table, as the specification words it: the
completion of the first entry whose pattern matches, empty when none does. -/
def firstMatchWins : List (Regex × JStr) → JStr → JStr
  | [], _ => []
  | (p, c) :: rest, line => if p.test line then c else firstMatchWins rest line

/-! ## `booleanSimplifier` -/

/-- The pattern `/\((\w+)\s*==\s*false\s*&&\s*(\w+)\s*==\s*false\)/g`. -/
def booleanPattern : Regex :=
  .cat [.chr 40, .group 1 (.many1 .word), .many .space, .lit (utf16 "=="), .many .space,
    .lit (utf16 "false"), .many .space, .lit (utf16 "&&"), .many .space,
    .group 2 (.many1 .word), .many .space, .lit (utf16 "=="), .many .space,
    .lit (utf16 "false"), .chr 41]

/-- The hint pushed for a match with captures `a` and `b` (the arrow is written
as the source file has it). -/
def hintText (a b : JStr) : JStr :=
  utf16 "Consider: (!" ++ a ++ utf16 " && !" ++ b ++ utf16 ") âžœ !( " ++ a ++ utf16 " || " ++ b ++
    utf16 " )"

/-- The loop `while ((m = pattern.exec(editor.value))) hints.push(...)`, with the
`lastIndex` of the pattern as its state; `none` when the fuel runs out before
`exec` returns `null`. -/
def hintsLoop (text : JStr) : Nat → Nat → Option (List JStr)
  | 0, _ => none
  | fuel + 1, lastIndex =>
    match exec booleanPattern text lastIndex with
    | none => some []
    | some (_, m) =>
      (hintsLoop text fuel m.pos).map fun hints => hintText (capText m 1) (capText m 2) :: hints

/-- The list markup `hints.map(h => "<li>" + h + "</li>").join('')`. -/
def renderItems (hints : List JStr) : JStr :=
  (hints.map fun h => utf16 "<li>" ++ h ++ utf16 "</li>").flatten

/-- The sentinel shown when the simplifier is switched off. -/
def pausedSentinel : JStr := utf16 "<li>Simplifier paused.</li>"

/-- The sentinel shown when there is no hint. -/
def noHintSentinel : JStr := utf16 "<li>No simplifications suggested.</li>"

/-- The function `booleanSimplifier()` as a function of the toggle and the text: the markup
written to `booleanHints` (`none`: the loop did not finish within the fuel). -/
def booleanSimplifier (boolChecked : Bool) (text : JStr) (fuel : Nat) : Option JStr :=
  if !boolChecked then some pausedSentinel
  else
    (hintsLoop text fuel 0).map fun hints =>
      if (renderItems hints).isEmpty then noHintSentinel else renderItems hints

/-- The occurrences of a pattern "non-overlapping, taken left to right", as the
specification words them: walk the text from the left; wherever the pattern
matches, take that occurrence and resume at its end; otherwise move one code
unit on.  `skip` counts the code units still covered by the last occurrence. -/
def occurrences (r : Regex) : Nat → Option Nat → Nat → JStr → List (Nat × MState)
  | skip, prev, pos, [] =>
    if skip = 0 then ((run r ⟨prev, pos, [], []⟩).head?.map fun e => (pos, e)).toList else []
  | skip + 1, _, pos, x :: xs => occurrences r skip (some x) (pos + 1) xs
  | 0, prev, pos, x :: xs =>
    match (run r ⟨prev, pos, x :: xs, []⟩).head? with
    | some e => (pos, e) :: occurrences r (e.pos - pos - 1) (some x) (pos + 1) xs
    | none => occurrences r 0 (some x) (pos + 1) xs

/-! ## `restoreSnapshot` -/

/-- The record written by `saveSnapshot`. -/
structure Snapshot where
  code : JStr
  scratchpad : JStr
  cursor : Nat
  ts : Nat
  deriving DecidableEq, Repr

/-- The part of the page `restoreSnapshot` writes to. -/
structure Editor where
  value : JStr
  scratchpad : JStr
  selectionStart : Nat
  console : JStr
  deriving DecidableEq, Repr

/-- How a call of `restoreSnapshot` ends. -/
inductive Outcome where
  | noSnapshot
  | restored
  | threw
  deriving DecidableEq, Repr

/-- The function `restoreSnapshot()`.  `stored` is the result of `localStorage.getItem`
(`none` for `null`), `parse` is `JSON.parse` restricted to snapshot records
(`none`: it throws a `SyntaxError`), `time` formats the timestamp.  The function
has no `try`, so an exception of `JSON.parse` leaves it at that statement; the
call of `runAll()` on the restoring path writes to other elements of the page
only. -/
def restoreSnapshot (parse : JStr → Option Snapshot) (time : Nat → JStr)
    (stored : Option JStr) (ed : Editor) : Editor × Outcome :=
  match stored with
  | none => ({ ed with console := utf16 "[Snapshot] No saved state found." }, .noSnapshot)
  | some raw =>
    if raw.isEmpty then
      ({ ed with console := utf16 "[Snapshot] No saved state found." }, .noSnapshot)
    else
      match parse raw with
      | none => (ed, .threw)
      | some data =>
        ({ value := data.code
           scratchpad := data.scratchpad
           selectionStart := data.cursor
           console := utf16 "[Snapshot] Restored from " ++ time data.ts }, .restored)

/-! ## Notions used to state the properties -/

/-- The net brace count of one line: what one pass of the second loop of
`findFunctionBounds` adds to `braces`. -/
def braceDelta (l : JStr) : Int := (openBraces l : Int) - (closeBraces l : Int)

/-- The running brace balance of the second loop of `findFunctionBounds` after
the line of index `i`, when the loop started at line `start`. -/
def balance (lines : List JStr) (start i : Nat) : Int :=
  (((lines.drop start).take (i + 1 - start)).map braceDelta).sum

/-- The code unit before the position reached after reading `consumed`, when
the one before its start was `prev`. -/
def prevAfter : Option Nat → JStr → Option Nat
  | prev, [] => prev
  | _, x :: xs => prevAfter (some x) xs

/-- The same matcher position with more text after it. -/
def extend (sfx : JStr) (e : MState) : MState :=
  { e with rest := e.rest ++ sfx }

/-- Expressions that can neither read a space nor tell a following space from
the end of the input: built from `\b`, literals other than the space,
sequence, alternation and groups. -/
def spaceBlind : Regex → Bool
  | .eps => true
  | .chr c => c != 32
  | .cls _ => false
  | .many _ => false
  | .wordB => true
  | .eoi => false
  | .seq a b => spaceBlind a && spaceBlind b
  | .alt a b => spaceBlind a && spaceBlind b
  | .group _ a => spaceBlind a

/-- The six word keywords of `keywordPattern`. -/
def wordKeywords : List JStr :=
  [utf16 "if", utf16 "for", utf16 "foreach", utf16 "while", utf16 "case", utf16 "catch"]

/-- The same matcher position in a text that has `d` more code units in front:
every offset moves by `d`. -/
def reloc (d : Nat) (e : MState) : MState :=
  { e with pos := e.pos + d, caps := e.caps.map fun c => (c.1, c.2.1 + d, c.2.2) }

/-- A whole-word occurrence of `v` at a position of a text: the text goes on
with `v`, and neither the code unit before the position nor the one after `v`
is a word character. -/
def wholeWordAt (v : JStr) (prev : Option Nat) (rest : JStr) : Bool :=
  v.isPrefixOf rest && !wordAt prev && !wordAt (rest.drop v.length).head?

/-- The number of positions of a text, from the current one on, that hold a
whole-word occurrence of `v`. -/
def wholeWordCountFrom (v : JStr) : Option Nat → JStr → Nat
  | prev, [] => if wholeWordAt v prev [] then 1 else 0
  | prev, x :: xs =>
    (if wholeWordAt v prev (x :: xs) then 1 else 0) + wholeWordCountFrom v (some x) xs

/-- The number of whole-word occurrences of `v` in a text. -/
def wholeWordCount (v text : JStr) : Nat :=
  wholeWordCountFrom v none text

/-- Expressions without a capture group. -/
def noGroup : Regex → Bool
  | .seq a b => noGroup a && noGroup b
  | .alt a b => noGroup a && noGroup b
  | .group _ _ => false
  | _ => true

/-- A name as `\w+` captures it: non-empty, word characters only. -/
def IsName (v : JStr) : Prop := v ≠ [] ∧ ∀ c ∈ v, isWordChar c = true

/-- The hint for one occurrence of the boolean pattern, from its two captures. -/
def hintOf (m : Nat × MState) : JStr :=
  hintText (capText m.2 1) (capText m.2 2)

/-- A stand-in for `JSON.parse` on snapshots that accepts one document and
throws on every other string. -/
def parseOnly (doc : JStr) (data : Snapshot) (raw : JStr) : Option Snapshot :=
  if raw = doc then some data else none

/-- The matcher reaches the final position `e` from `s` by reading the text
`w`. -/
def Reads (s e : MState) (w : JStr) : Prop :=
  s.rest = w ++ e.rest ∧ e.pos = s.pos + w.length ∧ e.prev = prevAfter s.prev w

/-! ## Lines and function bounds -/

theorem split_ne_nil (sep : Nat) (s : JStr) : split sep s ≠ [] := by
  induction s with
  | nil => simp [split]
  | cons x xs ih =>
    unfold split
    split_ifs
    · simp
    · cases h : split sep xs <;> simp

theorem split_length (sep : Nat) (s : JStr) : (split sep s).length = s.count sep + 1 := by
  induction s with
  | nil => simp [split]
  | cons x xs ih =>
    unfold split
    by_cases hx : x = sep
    · subst hx
      simp [ih]
    · have hne : split sep xs ≠ [] := split_ne_nil sep xs
      rw [if_neg hx, List.count_cons_of_ne (Ne.symm hx)]
      cases h : split sep xs with
      | nil => exact absurd h hne
      | cons l ls => rw [h] at ih; simpa using ih

theorem caretLine_lt (value : JStr) (selectionStart : Nat) :
    caretLine value selectionStart < (getLines value).length := by
  unfold caretLine getLines
  rw [split_length, split_length]
  have : (value.take selectionStart).count 10 ≤ value.count 10 :=
    (List.take_sublist selectionStart value).count_le 10
  omega

theorem scanStart_le (lines : List JStr) (c i : Nat) (h : scanStart lines c = some i) :
    i ≤ c ∧ signaturePattern.test (lineAt lines i) = true ∧
      ∀ j, i < j → j ≤ c → signaturePattern.test (lineAt lines j) = false := by
  induction c with
  | zero =>
    unfold scanStart at h
    split_ifs at h with ht
    simp only [Option.some.injEq] at h
    subst h
    exact ⟨le_refl _, ht, fun j h1 h2 => by omega⟩
  | succ c ih =>
    unfold scanStart at h
    split_ifs at h with ht
    · simp only [Option.some.injEq] at h
      subst h
      exact ⟨le_refl _, ht, fun j h1 h2 => by omega⟩
    · obtain ⟨h1, h2, h3⟩ := ih h
      refine ⟨by omega, h2, fun j hj1 hj2 => ?_⟩
      by_cases hj : j = c + 1
      · subst hj; simpa using ht
      · exact h3 j hj1 (by omega)

theorem scanStart_none (lines : List JStr) (c : Nat) :
    scanStart lines c = none ↔ ∀ j, j ≤ c → signaturePattern.test (lineAt lines j) = false := by
  induction c with
  | zero =>
    unfold scanStart
    constructor
    · intro h j hj
      split_ifs at h with ht
      have : j = 0 := by omega
      subst this; simpa using ht
    · intro h
      rw [if_neg (by simp [h 0 (le_refl _)])]
  | succ c ih =>
    unfold scanStart
    constructor
    · intro h j hj
      split_ifs at h with ht
      by_cases hj' : j = c + 1
      · subst hj'; simpa using ht
      · exact ih.mp h j (by omega)
    · intro h
      rw [if_neg (by simp [h (c + 1) (le_refl _)])]
      exact ih.mpr fun j hj => h j (by omega)

theorem scanEnd_some (start : Nat) (ls : List JStr) (i : Nat) (b : Int) (e : Nat)
    (h : scanEnd start ls i b = some e) :
    i ≤ e ∧ start < e ∧ e < i + ls.length ∧
      b + ((ls.take (e + 1 - i)).map braceDelta).sum = 0 ∧
      ∀ j, i ≤ j → j < e → start < j → b + ((ls.take (j + 1 - i)).map braceDelta).sum ≠ 0 := by
  induction ls generalizing i b with
  | nil => simp [scanEnd] at h
  | cons l ls ih =>
    simp only [scanEnd] at h
    split_ifs at h with hc
    · simp only [Option.some.injEq] at h
      subst h
      refine ⟨le_refl _, hc.1, by simp, ?_, fun j h1 h2 => by omega⟩
      have : i + 1 - i = 1 := by omega
      rw [this]
      simp only [List.take_succ_cons, List.take_zero, List.map_cons, List.map_nil, List.sum_cons,
        List.sum_nil, braceDelta]
      have := hc.2
      omega
    · obtain ⟨h1, h2, h3, h4, h5⟩ := ih (i + 1) _ h
      refine ⟨by omega, h2, by simp only [List.length_cons]; omega, ?_, ?_⟩
      · have : e + 1 - i = (e + 1 - (i + 1)) + 1 := by omega
        rw [this, List.take_succ_cons, List.map_cons, List.sum_cons]
        simp only [braceDelta] at h4 ⊢
        omega
      · intro j hj1 hj2 hj3
        by_cases hji : j = i
        · subst hji
          have : j + 1 - j = 1 := by omega
          rw [this]
          simp only [List.take_succ_cons, List.take_zero, List.map_cons, List.map_nil,
            List.sum_cons, List.sum_nil, braceDelta]
          intro h0
          exact hc ⟨hj3, by omega⟩
        · have h5' := h5 j (by omega) hj2 hj3
          have : j + 1 - i = (j + 1 - (i + 1)) + 1 := by omega
          rw [this, List.take_succ_cons, List.map_cons, List.sum_cons]
          simp only [braceDelta] at h5' ⊢
          omega

theorem scanEnd_none (start : Nat) (ls : List JStr) (i : Nat) (b : Int)
    (h : scanEnd start ls i b = none) :
    ∀ j, i ≤ j → j < i + ls.length → start < j →
      b + ((ls.take (j + 1 - i)).map braceDelta).sum ≠ 0 := by
  induction ls generalizing i b with
  | nil => intro j h1 h2; simp at h2; omega
  | cons l ls ih =>
    simp only [scanEnd] at h
    split_ifs at h with hc
    intro j hj1 hj2 hj3
    by_cases hji : j = i
    · subst hji
      have : j + 1 - j = 1 := by omega
      rw [this]
      simp only [List.take_succ_cons, List.take_zero, List.map_cons, List.map_nil,
        List.sum_cons, List.sum_nil, braceDelta]
      intro h0
      exact hc ⟨hj3, by omega⟩
    · have h5' := ih (i + 1) _ h j (by omega) (by simp only [List.length_cons] at hj2; omega) hj3
      have : j + 1 - i = (j + 1 - (i + 1)) + 1 := by omega
      rw [this, List.take_succ_cons, List.map_cons, List.sum_cons]
      simp only [braceDelta] at h5' ⊢
      omega

/-- The `end` of `findFunctionBounds`, seen from `start`: the first line after
`start` at which the running balance is zero, or the last line. -/
theorem findEnd_spec (lines : List JStr) (start : Nat) (hs : start < lines.length) :
    let e := (scanEnd start (lines.drop start) start 0).getD (lines.length - 1)
    start ≤ e ∧ e < lines.length ∧
    (∀ j, start < j → j < e → balance lines start j ≠ 0) ∧
    (e < lines.length - 1 → start < e ∧ balance lines start e = 0) ∧
    (balance lines start e ≠ 0 → e = lines.length - 1) := by
  intro e
  cases h : scanEnd start (lines.drop start) start 0 with
  | none =>
    have he : e = lines.length - 1 := by simp [e, h]
    have hn := scanEnd_none start _ start 0 h
    simp only [List.length_drop, zero_add] at hn
    refine ⟨by omega, by omega, fun j h1 h2 => ?_, fun h1 => by omega, fun _ => he⟩
    exact hn j (by omega) (by omega) h1
  | some e' =>
    have he : e = e' := by simp [e, h]
    obtain ⟨h1, h2, h3, h4, h5⟩ := scanEnd_some start _ start 0 e' h
    simp only [List.length_drop, zero_add] at h3 h4 h5
    rw [he]
    refine ⟨h1, by omega, fun j hj1 hj2 => h5 j (by omega) hj2 hj1, fun _ => ⟨h2, h4⟩, ?_⟩
    intro hb
    exact absurd h4 hb

/-! ## The matcher: positions and consumed text -/

theorem prevAfter_append (p : Option Nat) (a b : JStr) :
    prevAfter p (a ++ b) = prevAfter (prevAfter p a) b := by
  induction a generalizing p with
  | nil => rfl
  | cons x xs ih => simp [prevAfter, ih]

theorem prevAfter_concat (p : Option Nat) (a : JStr) (x : Nat) :
    prevAfter p (a ++ [x]) = some x := by
  rw [prevAfter_append]; rfl

theorem Reads.refl (s : MState) : Reads s s [] := ⟨rfl, rfl, rfl⟩

theorem Reads.trans {s m e : MState} {u v : JStr} (h1 : Reads s m u) (h2 : Reads m e v) :
    Reads s e (u ++ v) := by
  obtain ⟨a1, a2, a3⟩ := h1
  obtain ⟨b1, b2, b3⟩ := h2
  refine ⟨by rw [a1, b1, List.append_assoc], by rw [b2, a2, List.length_append]; omega, ?_⟩
  rw [b3, a3, prevAfter_append]

theorem runMany_reads (k : Cls) (caps : List (Nat × Nat × JStr)) (rest : JStr) :
    ∀ (p : Option Nat) (n : Nat) (e : MState), e ∈ runMany k caps p n rest →
      ∃ ws, (∀ c ∈ ws, k.test c = true) ∧ rest = ws ++ e.rest ∧ e.pos = n + ws.length ∧
        e.prev = prevAfter p ws ∧ e.caps = caps := by
  induction rest with
  | nil =>
    intro p n e he
    simp only [runMany, List.mem_singleton] at he
    subst he
    exact ⟨[], by simp, rfl, rfl, rfl, rfl⟩
  | cons x xs ih =>
    intro p n e he
    simp only [runMany] at he
    split_ifs at he with hk
    · rcases List.mem_append.mp he with h | h
      · obtain ⟨ws, h1, h2, h3, h4, h5⟩ := ih (some x) (n + 1) e h
        refine ⟨x :: ws, ?_, by rw [h2]; simp, by rw [h3]; simp; omega, h4, h5⟩
        intro c hc
        rcases List.mem_cons.mp hc with rfl | hc
        · exact hk
        · exact h1 c hc
      · simp only [List.mem_singleton] at h
        subst h
        exact ⟨[], by simp, rfl, rfl, rfl, rfl⟩
    · simp only [List.mem_singleton] at he
      subst he
      exact ⟨[], by simp, rfl, rfl, rfl, rfl⟩

theorem run_reads (r : Regex) : ∀ (s e : MState), e ∈ run r s → ∃ w, Reads s e w := by
  induction r with
  | eps =>
    intro s e he
    simp only [run, List.mem_singleton] at he
    subst he
    exact ⟨[], Reads.refl _⟩
  | chr c =>
    intro s e he
    simp only [run] at he
    split at he
    · simp at he
    · rename_i x xs hrest
      split_ifs at he
      · simp only [List.mem_singleton] at he
        subst he
        exact ⟨[x], by simp [hrest], rfl, rfl⟩
      · simp at he
  | cls k =>
    intro s e he
    simp only [run] at he
    split at he
    · simp at he
    · rename_i x xs hrest
      split_ifs at he
      · simp only [List.mem_singleton] at he
        subst he
        exact ⟨[x], by simp [hrest], rfl, rfl⟩
      · simp at he
  | many k =>
    intro s e he
    simp only [run] at he
    obtain ⟨ws, _, h2, h3, h4, _⟩ := runMany_reads k _ _ _ _ e he
    exact ⟨ws, h2, h3, h4⟩
  | wordB =>
    intro s e he
    simp only [run] at he
    split_ifs at he
    · simp only [List.mem_singleton] at he
      subst he
      exact ⟨[], Reads.refl _⟩
    · simp at he
  | eoi =>
    intro s e he
    simp only [run] at he
    split_ifs at he
    · simp only [List.mem_singleton] at he
      subst he
      exact ⟨[], Reads.refl _⟩
    · simp at he
  | seq a b iha ihb =>
    intro s e he
    simp only [run, List.mem_flatMap] at he
    obtain ⟨m, hm, hme⟩ := he
    obtain ⟨u, hu⟩ := iha s m hm
    obtain ⟨v, hv⟩ := ihb m e hme
    exact ⟨u ++ v, hu.trans hv⟩
  | alt a b iha ihb =>
    intro s e he
    simp only [run, List.mem_append] at he
    rcases he with h | h
    · exact iha s e h
    · exact ihb s e h
  | group i a iha =>
    intro s e he
    simp only [run, List.mem_map] at he
    obtain ⟨m, hm, rfl⟩ := he
    obtain ⟨u, hu⟩ := iha s m hm
    exact ⟨u, hu⟩

theorem run_pos (r : Regex) (s e : MState) (he : e ∈ run r s) :
    s.pos ≤ e.pos ∧ e.pos + e.rest.length = s.pos + s.rest.length := by
  obtain ⟨w, h1, h2, _⟩ := run_reads r s e he
  rw [h1, h2, List.length_append]
  omega

/-! ## `exec` -/

theorem execFrom_some (r : Regex) (rest : JStr) :
    ∀ (p : Option Nat) (n idx : Nat) (e : MState), execFrom r p n rest = some (idx, e) →
      ∃ pre suf, rest = pre ++ suf ∧ idx = n + pre.length ∧
        (run r ⟨prevAfter p pre, idx, suf, []⟩).head? = some e := by
  induction rest with
  | nil =>
    intro p n idx e h
    simp only [execFrom, Option.map_eq_some'] at h
    obtain ⟨a, ha, hb⟩ := h
    simp only [Prod.mk.injEq] at hb
    obtain ⟨rfl, rfl⟩ := hb
    exact ⟨[], [], rfl, rfl, ha⟩
  | cons x xs ih =>
    intro p n idx e h
    simp only [execFrom] at h
    split at h
    · rename_i e' he'
      simp only [Option.some.injEq, Prod.mk.injEq] at h
      obtain ⟨rfl, rfl⟩ := h
      exact ⟨[], x :: xs, rfl, rfl, he'⟩
    · obtain ⟨pre, suf, h1, h2, h3⟩ := ih _ _ _ _ h
      refine ⟨x :: pre, suf, by rw [h1]; rfl, by rw [h2]; simp; omega, h3⟩

theorem execFrom_bounds (r : Regex) (rest : JStr) (p : Option Nat) (n idx : Nat) (e : MState)
    (h : execFrom r p n rest = some (idx, e)) :
    n ≤ idx ∧ idx ≤ e.pos ∧ e.pos ≤ n + rest.length := by
  obtain ⟨pre, suf, h1, h2, h3⟩ := execFrom_some r rest p n idx e h
  have := run_pos r _ e (List.mem_of_mem_head? h3)
  simp only at this
  rw [h1, List.length_append]
  omega

theorem prevAt_append_length (pre rest : JStr) :
    prevAt (pre ++ rest) pre.length = prevAfter none pre := by
  unfold prevAt
  rcases List.eq_nil_or_concat pre with rfl | ⟨l, x, rfl⟩
  · rfl
  · rw [List.concat_eq_append, prevAfter_concat]
    simp [List.getElem_append_right]

theorem exec_append (r : Regex) (pre rest : JStr) :
    exec r (pre ++ rest) pre.length = execFrom r (prevAfter none pre) pre.length rest := by
  unfold exec
  rw [if_neg (by simp), prevAt_append_length, List.drop_left]

theorem exec_beyond (r : Regex) (text : JStr) (i : Nat) (h : text.length < i) :
    exec r text i = none := by
  unfold exec
  rw [if_pos h]

/-! ## Occurrences, and the global iteration as occurrences -/

theorem occurrences_skip (r : Regex) (k : Nat) :
    ∀ (p : Option Nat) (n : Nat) (rest : JStr), k ≤ rest.length →
      occurrences r k p n rest =
        occurrences r 0 (prevAfter p (rest.take k)) (n + k) (rest.drop k) := by
  induction k with
  | zero => intro p n rest _; simp [prevAfter]
  | succ k ih =>
    intro p n rest h
    cases rest with
    | nil => simp at h
    | cons x xs =>
      simp only [List.length_cons, Nat.add_le_add_iff_right] at h
      simp only [occurrences, List.take_succ_cons, List.drop_succ_cons, prevAfter]
      rw [ih _ _ _ h]
      congr 1
      omega

/-- The list of occurrences from a position, in terms of the first one found
by the search loop of `exec`. -/
theorem occurrences_eq_execFrom (r : Regex) (rest : JStr) :
    ∀ (p : Option Nat) (n : Nat),
      occurrences r 0 p n rest =
        match execFrom r p n rest with
        | none => []
        | some (idx, e) =>
          (idx, e) ::
            (if idx - n < rest.length then
              occurrences r 0 (prevAfter p (rest.take (max (e.pos - n) (idx - n + 1))))
                (n + max (e.pos - n) (idx - n + 1)) (rest.drop (max (e.pos - n) (idx - n + 1)))
             else []) := by
  induction rest with
  | nil =>
    intro p n
    simp only [occurrences, execFrom]
    cases (run r ⟨p, n, [], []⟩).head? <;> simp
  | cons x xs ih =>
    intro p n
    simp only [occurrences, execFrom]
    cases h : (run r ⟨p, n, x :: xs, []⟩).head? with
    | some e =>
      have hp := run_pos r _ e (List.mem_of_mem_head? h)
      simp only [List.length_cons] at hp
      simp only [Nat.sub_self, zero_add, List.length_cons, Nat.zero_lt_succ, if_true]
      rw [occurrences_skip r (e.pos - n - 1) _ _ _ (by omega)]
      congr 1
      by_cases he : e.pos = n
      · have h1 : e.pos - n - 1 = 0 := by omega
        have h2 : max (e.pos - n) 1 = 1 := by omega
        rw [h1, h2]
        simp [prevAfter]
      · have h2 : max (e.pos - n) 1 = (e.pos - n - 1) + 1 := by omega
        rw [h2, List.take_succ_cons, List.drop_succ_cons]
        simp only [prevAfter]
        congr 1
        omega
    | none =>
      simp only
      rw [ih]
      cases h' : execFrom r (some x) (n + 1) xs with
      | none => rfl
      | some v =>
        obtain ⟨idx, e⟩ := v
        have hb := execFrom_bounds r xs _ _ _ _ h'
        simp only [List.length_cons]
        have e1 : idx - n = (idx - (n + 1)) + 1 := by omega
        have e2 : max (e.pos - n) (idx - n + 1) = max (e.pos - (n + 1)) (idx - (n + 1) + 1) + 1 := by
          omega
        rw [e2, List.take_succ_cons, List.drop_succ_cons]
        simp only [prevAfter]
        congr 1
        by_cases hlt : idx - (n + 1) < xs.length
        · rw [if_pos hlt, if_pos (by omega)]
          congr 1
          omega
        · rw [if_neg hlt, if_neg (by omega)]

theorem matchAllLoop_eq_occurrences (r : Regex) (m : Nat) :
    ∀ (pre rest : JStr) (fuel : Nat), rest.length ≤ m → rest.length + 2 ≤ fuel →
      matchAllLoop r (pre ++ rest) fuel pre.length =
        occurrences r 0 (prevAfter none pre) pre.length rest := by
  induction m with
  | zero =>
    intro pre rest fuel hm hf
    have hr : rest = [] := List.length_eq_zero.mp (by omega)
    subst hr
    obtain ⟨f, rfl⟩ : ∃ f, fuel = f + 2 := ⟨fuel - 2, by simp at hf; omega⟩
    simp only [matchAllLoop, exec_append, execFrom, occurrences, if_true]
    cases h : (run r ⟨prevAfter none pre, pre.length, [], []⟩).head? with
    | none => rfl
    | some e =>
      have hp := run_pos r _ e (List.mem_of_mem_head? h)
      simp only [List.length_nil, add_zero] at hp
      have he : e.pos = pre.length := by omega
      simp only [Option.map_some', Option.toList_some, he, if_true]
      rw [exec_beyond r _ _ (by simp)]
  | succ m ih =>
    intro pre rest fuel hm hf
    obtain ⟨f, rfl⟩ : ∃ f, fuel = f + 1 := ⟨fuel - 1, by omega⟩
    rw [occurrences_eq_execFrom]
    simp only [matchAllLoop, exec_append]
    cases h : execFrom r (prevAfter none pre) pre.length rest with
    | none => rfl
    | some v =>
      obtain ⟨idx, e⟩ := v
      have hb := execFrom_bounds r rest _ _ _ _ h
      simp only
      congr 1
      by_cases hlt : idx - pre.length < rest.length
      · rw [if_pos hlt]
        set j := max (e.pos - pre.length) (idx - pre.length + 1) with hj
        have hjle : j ≤ rest.length := by omega
        have hj1 : 1 ≤ j := by omega
        have hli : (if e.pos = idx then e.pos + 1 else e.pos) = (pre ++ rest.take j).length := by
          rw [List.length_append, List.length_take, min_eq_left hjle]
          split_ifs <;> omega
        have htext : pre ++ rest = (pre ++ rest.take j) ++ rest.drop j := by
          rw [List.append_assoc, List.take_append_drop]
        rw [hli, htext, ih (pre ++ rest.take j) (rest.drop j) f
          (by rw [List.length_drop]; omega) (by rw [List.length_drop]; omega)]
        rw [prevAfter_append, List.length_append, List.length_take, min_eq_left hjle]
      · rw [if_neg hlt]
        have he : e.pos = idx := by omega
        rw [if_pos he]
        obtain ⟨f', rfl⟩ : ∃ f', f = f' + 1 := ⟨f - 1, by omega⟩
        simp only [matchAllLoop]
        rw [exec_beyond r _ _ (by rw [List.length_append]; omega)]

/-- The matches of a global regex are the non-overlapping occurrences of the
pattern taken left to right. -/
theorem matchAll_eq_occurrences (r : Regex) (text : JStr) :
    matchAll r text = occurrences r 0 none 0 text := by
  have := matchAllLoop_eq_occurrences r text.length [] text (text.length + 2) (le_refl _) (le_refl _)
  simpa [matchAll, prevAfter] using this

/-- More fuel than `text.length + 2` does not change the result of the global
iteration: it has ended by then. -/
theorem matchAllLoop_fuel (r : Regex) (text : JStr) (fuel : Nat) (h : text.length + 2 ≤ fuel) :
    matchAllLoop r text fuel 0 = matchAll r text := by
  have := matchAllLoop_eq_occurrences r text.length [] text fuel (le_refl _) h
  rw [matchAll_eq_occurrences]
  simpa [prevAfter] using this

/-! ## Appending a separate token -/

theorem run_spaceBlind (r : Regex) (hr : spaceBlind r = true) (w : JStr) :
    ∀ s : MState, run r (extend (32 :: w) s) = (run r s).map (extend (32 :: w)) := by
  induction r with
  | eps => intro s; simp [run]
  | chr c =>
    intro s
    simp only [spaceBlind, bne_iff_ne, ne_eq] at hr
    obtain ⟨p, n, rest, caps⟩ := s
    cases rest with
    | nil => simp [run, extend, Ne.symm hr]
    | cons x xs =>
      by_cases hx : x = c <;> simp [run, extend, hx]
  | cls k => simp [spaceBlind] at hr
  | many k => simp [spaceBlind] at hr
  | wordB =>
    intro s
    obtain ⟨p, n, rest, caps⟩ := s
    cases rest with
    | nil =>
      have h32 : isWordChar 32 = false := by decide
      cases p with
      | none => simp [run, extend, atBoundary, wordAt, h32]
      | some q => by_cases hb : isWordChar q = true <;> simp [run, extend, atBoundary, wordAt, h32, hb]
    | cons x xs =>
      by_cases hb : (wordAt p != wordAt (some x)) = true <;>
        simp [run, extend, atBoundary, hb]
  | eoi => simp [spaceBlind] at hr
  | seq a b iha ihb =>
    intro s
    simp only [spaceBlind, Bool.and_eq_true] at hr
    simp only [run, iha hr.1, List.flatMap_map, ihb hr.2, List.map_flatMap]
  | alt a b iha ihb =>
    intro s
    simp only [spaceBlind, Bool.and_eq_true] at hr
    simp only [run, iha hr.1, ihb hr.2, List.map_append]
  | group i a iha =>
    intro s
    simp only [spaceBlind] at hr
    simp only [run, iha hr, List.map_map]
    apply List.map_congr_left
    intro e he
    have hp := run_pos a s e he
    simp only [Function.comp, extend]
    rw [List.take_append_of_le_length (by omega)]

theorem occurrences_append_token (r : Regex) (hr : spaceBlind r = true) (w : JStr)
    (hnil : ∀ (p : Option Nat) (n : Nat), run r ⟨p, n, [], []⟩ = [])
    (c : Nat) (hw : ∀ (p : Option Nat) (n : Nat), (occurrences r 0 p n (32 :: w)).length = c) :
    ∀ (u : JStr) (k : Nat) (p : Option Nat) (n : Nat), k ≤ u.length →
      (occurrences r k p n (u ++ 32 :: w)).length = (occurrences r k p n u).length + c := by
  intro u
  induction u with
  | nil =>
    intro k p n hk
    have hk0 : k = 0 := by simpa using hk
    subst hk0
    rw [List.nil_append, hw]
    simp [occurrences, hnil]
  | cons x xs ih =>
    intro k p n hk
    cases k with
    | succ k =>
      rw [List.cons_append]
      simp only [occurrences]
      exact ih k _ _ (by simpa using hk)
    | zero =>
      rw [List.cons_append]
      simp only [occurrences]
      have h1 := run_spaceBlind r hr w ⟨p, n, x :: xs, []⟩
      simp only [extend, List.cons_append] at h1
      rw [h1, List.head?_map]
      cases h : (run r ⟨p, n, x :: xs, []⟩).head? with
      | none => simpa using ih 0 _ _ (by omega)
      | some e =>
        have hp := run_pos r _ e (List.mem_of_mem_head? h)
        simp only [List.length_cons] at hp
        have hpos : (extend (32 :: w) e).pos = e.pos := rfl
        simp only [Option.map_some', List.length_cons, hpos]
        rw [ih _ _ _ (by omega)]
        omega

/-! ## Offsets do not influence matching -/

theorem runMany_reloc (k : Cls) (d : Nat) (caps : List (Nat × Nat × JStr)) (rest : JStr) :
    ∀ (p : Option Nat) (n : Nat),
      runMany k (caps.map fun c => (c.1, c.2.1 + d, c.2.2)) p (n + d) rest =
        (runMany k caps p n rest).map (reloc d) := by
  induction rest with
  | nil => intro p n; simp [runMany, reloc]
  | cons x xs ih =>
    intro p n
    simp only [runMany]
    have h := ih (some x) (n + 1)
    rw [show n + 1 + d = n + d + 1 by omega] at h
    split_ifs
    · rw [h]; simp [reloc]
    · simp [reloc]

theorem run_reloc (r : Regex) (d : Nat) :
    ∀ s : MState, run r (reloc d s) = (run r s).map (reloc d) := by
  induction r with
  | eps => intro s; simp [run]
  | chr c =>
    intro s
    obtain ⟨p, n, rest, caps⟩ := s
    cases rest with
    | nil => simp [run, reloc]
    | cons x xs =>
      by_cases hx : x = c <;> simp [run, reloc, hx]
      omega
  | cls k =>
    intro s
    obtain ⟨p, n, rest, caps⟩ := s
    cases rest with
    | nil => simp [run, reloc]
    | cons x xs =>
      by_cases hx : k.test x = true <;> simp [run, reloc, hx]
      omega
  | many k =>
    intro s
    simp only [run]
    exact runMany_reloc k d s.caps s.rest s.prev s.pos
  | wordB =>
    intro s
    by_cases hb : atBoundary s = true
    · have : atBoundary (reloc d s) = true := hb
      simp [run, hb, this]
    · have : ¬ atBoundary (reloc d s) = true := hb
      simp [run, hb, this]
  | eoi =>
    intro s
    by_cases hb : s.rest.isEmpty = true
    · have : (reloc d s).rest.isEmpty = true := hb
      simp [run, hb, this]
    · have : ¬ (reloc d s).rest.isEmpty = true := hb
      simp [run, hb, this]
  | seq a b iha ihb =>
    intro s
    simp only [run, iha, List.flatMap_map, ihb, List.map_flatMap]
  | alt a b iha ihb =>
    intro s
    simp only [run, iha, ihb, List.map_append]
  | group i a iha =>
    intro s
    simp only [run, iha, List.map_map]
    apply List.map_congr_left
    intro e _
    simp only [Function.comp, reloc, List.map_cons]
    have : e.pos + d - (s.pos + d) = e.pos - s.pos := by omega
    rw [this]

theorem occurrences_reloc (r : Regex) (d : Nat) (rest : JStr) :
    ∀ (k : Nat) (p : Option Nat) (n : Nat),
      occurrences r k p (n + d) rest =
        (occurrences r k p n rest).map fun m => (m.1 + d, reloc d m.2) := by
  induction rest with
  | nil =>
    intro k p n
    simp only [occurrences]
    have h := run_reloc r d ⟨p, n, [], []⟩
    simp only [reloc, List.map_nil] at h
    split_ifs
    · rw [h, List.head?_map]
      cases (run r ⟨p, n, [], []⟩).head? <;> simp [reloc]
    · rfl
  | cons x xs ih =>
    intro k p n
    cases k with
    | succ k =>
      simp only [occurrences]
      rw [show n + d + 1 = n + 1 + d by omega]
      exact ih k _ _
    | zero =>
      simp only [occurrences]
      have h := run_reloc r d ⟨p, n, x :: xs, []⟩
      simp only [reloc, List.map_nil] at h
      rw [h, List.head?_map]
      cases hh : (run r ⟨p, n, x :: xs, []⟩).head? with
      | none =>
        simp only [Option.map_none']
        rw [show n + d + 1 = n + 1 + d by omega]
        exact ih 0 _ _
      | some e =>
        simp only [Option.map_some', List.map_cons]
        rw [show n + d + 1 = n + 1 + d by omega, ih]
        have : e.pos + d - (n + d) - 1 = e.pos - n - 1 := by omega
        simp [reloc, this]

theorem occurrences_length_pos (r : Regex) (k : Nat) (p : Option Nat) (n : Nat) (rest : JStr) :
    (occurrences r k p n rest).length = (occurrences r k p 0 rest).length := by
  have := occurrences_reloc r n rest k p 0
  rw [Nat.zero_add] at this
  rw [this, List.length_map]

/-! ## Literals, captures, and whole-word occurrences -/

theorem mem_run_seq {a b : Regex} {s e : MState} :
    e ∈ run (.seq a b) s ↔ ∃ m, m ∈ run a s ∧ e ∈ run b m := by
  simp only [run, List.mem_flatMap]

theorem run_seq (a b : Regex) (s : MState) :
    run (.seq a b) s = (run a s).flatMap (run b) := rfl

theorem run_wordB (s : MState) : run .wordB s = if atBoundary s then [s] else [] := rfl

theorem run_eps (s : MState) : run .eps s = [s] := rfl

theorem run_lit (w : JStr) : ∀ s : MState,
    run (.lit w) s =
      if w.isPrefixOf s.rest then
        [⟨prevAfter s.prev w, s.pos + w.length, s.rest.drop w.length, s.caps⟩]
      else [] := by
  induction w with
  | nil => intro s; simp [Regex.lit, run, prevAfter]
  | cons c cs ih =>
    intro s
    obtain ⟨p, n, rest, caps⟩ := s
    cases rest with
    | nil => simp [Regex.lit, run]
    | cons x xs =>
      by_cases hx : x = c
      · subst hx
        simp only [Regex.lit, run, if_true, List.flatMap_cons, List.flatMap_nil, List.append_nil, ih,
          List.isPrefixOf, beq_self_eq_true, Bool.true_and, List.length_cons, List.drop_succ_cons,
          prevAfter]
        split_ifs
        · simp; omega
        · rfl
      · have hx' : (c == x) = false := by simpa using Ne.symm hx
        simp [Regex.lit, run, hx, List.isPrefixOf, hx']

theorem run_noGroup (r : Regex) (hr : noGroup r = true) :
    ∀ (s e : MState), e ∈ run r s → e.caps = s.caps := by
  induction r with
  | eps => intro s e he; simp only [run, List.mem_singleton] at he; rw [he]
  | chr c =>
    intro s e he
    simp only [run] at he
    split at he
    · simp at he
    · split_ifs at he
      · simp only [List.mem_singleton] at he; rw [he]
      · simp at he
  | cls k =>
    intro s e he
    simp only [run] at he
    split at he
    · simp at he
    · split_ifs at he
      · simp only [List.mem_singleton] at he; rw [he]
      · simp at he
  | many k =>
    intro s e he
    simp only [run] at he
    obtain ⟨_, _, _, _, _, h⟩ := runMany_reads k _ _ _ _ e he
    exact h
  | wordB =>
    intro s e he
    simp only [run] at he
    split_ifs at he
    · simp only [List.mem_singleton] at he; rw [he]
    · simp at he
  | eoi =>
    intro s e he
    simp only [run] at he
    split_ifs at he
    · simp only [List.mem_singleton] at he; rw [he]
    · simp at he
  | seq a b iha ihb =>
    intro s e he
    simp only [noGroup, Bool.and_eq_true] at hr
    simp only [run, List.mem_flatMap] at he
    obtain ⟨m, hm, hme⟩ := he
    rw [ihb hr.2 m e hme, iha hr.1 s m hm]
  | alt a b iha ihb =>
    intro s e he
    simp only [noGroup, Bool.and_eq_true] at hr
    simp only [run, List.mem_append] at he
    rcases he with h | h
    · exact iha hr.1 s e h
    · exact ihb hr.2 s e h
  | group i a _ => simp [noGroup] at hr

/-- What `k+` reads: a non-empty run of the class. -/
theorem run_many1 (k : Cls) (s e : MState) (he : e ∈ run (.many1 k) s) :
    ∃ w, Reads s e w ∧ w ≠ [] ∧ (∀ c ∈ w, k.test c = true) ∧ e.caps = s.caps := by
  simp only [Regex.many1, run, List.mem_flatMap] at he
  obtain ⟨m, hm, hme⟩ := he
  split at hm
  · simp at hm
  · rename_i x xs hrest
    split_ifs at hm with hk
    · simp only [List.mem_singleton] at hm
      subst hm
      obtain ⟨ws, h1, h2, h3, h4, h5⟩ := runMany_reads k _ _ _ _ e hme
      simp only at h2 h3 h4 h5
      refine ⟨x :: ws, ⟨by rw [hrest, h2]; rfl, by rw [h3]; simp; omega, by rw [h4]; rfl⟩,
        by simp, ?_, h5⟩
      intro c hc
      rcases List.mem_cons.mp hc with rfl | hc
      · exact hk
      · exact h1 c hc
    · simp at hm

/-- What a group over `k+` records: the non-empty run it read. -/
theorem run_group_many1 (i : Nat) (k : Cls) (s e : MState)
    (he : e ∈ run (.group i (.many1 k)) s) :
    ∃ w, Reads s e w ∧ w ≠ [] ∧ (∀ c ∈ w, k.test c = true) ∧
      e.caps = (i, s.pos, w) :: s.caps := by
  simp only [run, List.mem_map] at he
  obtain ⟨m, hm, rfl⟩ := he
  obtain ⟨w, hw, h1, h2, h3⟩ := run_many1 k s m hm
  refine ⟨w, hw, h1, h2, ?_⟩
  obtain ⟨a1, a2, _⟩ := hw
  simp only [h3, a1, a2]
  simp

theorem occurrences_mem (r : Regex) (rest : JStr) :
    ∀ (k : Nat) (p : Option Nat) (n : Nat) (m : Nat × MState), m ∈ occurrences r k p n rest →
      ∃ p' rest', m.2 ∈ run r ⟨p', m.1, rest', []⟩ := by
  induction rest with
  | nil =>
    intro k p n m hm
    simp only [occurrences] at hm
    split_ifs at hm
    · cases h : (run r ⟨p, n, [], []⟩).head? with
      | none => simp [h] at hm
      | some e =>
        simp only [h, Option.map_some', Option.toList_some, List.mem_singleton] at hm
        subst hm
        exact ⟨p, [], List.mem_of_mem_head? h⟩
    · simp at hm
  | cons x xs ih =>
    intro k p n m hm
    cases k with
    | succ k =>
      simp only [occurrences] at hm
      exact ih _ _ _ m hm
    | zero =>
      simp only [occurrences] at hm
      cases h : (run r ⟨p, n, x :: xs, []⟩).head? with
      | none =>
        rw [h] at hm
        exact ih _ _ _ m hm
      | some e =>
        rw [h] at hm
        rcases List.mem_cons.mp hm with rfl | hm
        · exact ⟨p, x :: xs, List.mem_of_mem_head? h⟩
        · exact ih _ _ _ m hm

/-! ## `drawFlowMappings` -/

theorem wordAt_prevAfter (v : JStr) (hv : IsName v) (p : Option Nat) :
    wordAt (prevAfter p v) = true := by
  obtain ⟨hne, hall⟩ := hv
  rcases List.eq_nil_or_concat v with rfl | ⟨l, x, rfl⟩
  · exact absurd rfl hne
  · rw [List.concat_eq_append, prevAfter_concat]
    exact hall x (by simp)

theorem usagePattern_run (v : JStr) (p : Option Nat) (n : Nat) (rest : JStr) :
    run (usagePattern v) ⟨p, n, rest, []⟩ =
      if (atBoundary ⟨p, n, rest, []⟩ && v.isPrefixOf rest &&
          atBoundary ⟨prevAfter p v, n + v.length, rest.drop v.length, []⟩) = true then
        [⟨prevAfter p v, n + v.length, rest.drop v.length, []⟩]
      else [] := by
  simp only [usagePattern, Regex.cat]
  by_cases hb : atBoundary ⟨p, n, rest, []⟩ = true
  · by_cases hpre : v.isPrefixOf rest = true
    · by_cases hb2 : atBoundary ⟨prevAfter p v, n + v.length, rest.drop v.length, []⟩ = true
      · simp only [run_seq, run_wordB, run_eps, run_lit, hb, hpre, hb2, if_true, List.flatMap_cons,
          List.flatMap_nil, List.append_nil, Bool.and_self]
      · simp only [run_seq, run_wordB, run_eps, run_lit, hb, hpre, hb2, if_true, List.flatMap_cons,
          List.flatMap_nil, List.append_nil, Bool.and_self, Bool.false_eq_true, if_false,
          Bool.and_false]
    · simp only [run_seq, run_wordB, run_eps, run_lit, hb, hpre, if_true, List.flatMap_cons,
        List.flatMap_nil, List.append_nil, Bool.false_eq_true, if_false, Bool.and_false,
        Bool.false_and]
  · simp only [run_seq, run_wordB, hb, List.flatMap_nil, Bool.false_eq_true, if_false,
      Bool.false_and]

theorem wholeWordAt_eq (v : JStr) (hv : IsName v) (p : Option Nat) (n : Nat) (rest : JStr) :
    (atBoundary ⟨p, n, rest, []⟩ && v.isPrefixOf rest &&
      atBoundary ⟨prevAfter p v, n + v.length, rest.drop v.length, []⟩) = wholeWordAt v p rest := by
  by_cases hpre : v.isPrefixOf rest = true
  · have hhead : wordAt rest.head? = true := by
      obtain ⟨t, rfl⟩ := List.isPrefixOf_iff_prefix.mp hpre
      obtain ⟨hne, hall⟩ := hv
      cases v with
      | nil => exact absurd rfl hne
      | cons c cs => simpa [wordAt] using hall c (by simp)
    have hlast := wordAt_prevAfter v hv p
    simp only [atBoundary, wholeWordAt, hpre, hhead, hlast]
    cases wordAt p <;> cases wordAt (rest.drop v.length).head? <;> rfl
  · simp only [Bool.not_eq_true] at hpre
    simp only [wholeWordAt, hpre, Bool.and_false, Bool.false_and]

theorem usagePattern_head (v : JStr) (hv : IsName v) (p : Option Nat) (n : Nat) (rest : JStr) :
    (run (usagePattern v) ⟨p, n, rest, []⟩).head? =
      if wholeWordAt v p rest then some ⟨prevAfter p v, n + v.length, rest.drop v.length, []⟩
      else none := by
  rw [usagePattern_run, wholeWordAt_eq v hv]
  split_ifs <;> rfl

theorem wholeWordCountFrom_skip (v : JStr) (ws : JStr) (hws : ∀ c ∈ ws, isWordChar c = true) :
    ∀ (p : Option Nat) (rest : JStr), wordAt p = true →
      wholeWordCountFrom v p (ws ++ rest) = wholeWordCountFrom v (prevAfter p ws) rest := by
  induction ws with
  | nil => intro p rest _; rfl
  | cons c cs ih =>
    intro p rest hp
    have hc : wordAt (some c) = true := hws c (by simp)
    rw [List.cons_append]
    simp only [wholeWordCountFrom, wholeWordAt, hp, Bool.not_true, Bool.and_false, Bool.false_and,
      Bool.false_eq_true, if_false, zero_add, prevAfter]
    exact ih (fun c' hc' => hws c' (by simp [hc'])) _ _ hc

theorem usage_count (v : JStr) (hv : IsName v) (m : Nat) :
    ∀ (p : Option Nat) (n : Nat) (rest : JStr), rest.length ≤ m →
      (occurrences (usagePattern v) 0 p n rest).length = wholeWordCountFrom v p rest := by
  induction m with
  | zero =>
    intro p n rest h
    have hr : rest = [] := List.length_eq_zero.mp (by omega)
    subst hr
    simp only [occurrences, if_true, usagePattern_head v hv, wholeWordCountFrom]
    split_ifs <;> rfl
  | succ m ih =>
    intro p n rest h
    cases rest with
    | nil =>
      simp only [occurrences, if_true, usagePattern_head v hv, wholeWordCountFrom]
      split_ifs <;> rfl
    | cons x xs =>
      simp only [List.length_cons, Nat.add_le_add_iff_right] at h
      simp only [occurrences, usagePattern_head v hv, wholeWordCountFrom]
      by_cases hw : wholeWordAt v p (x :: xs) = true
      · simp only [hw, if_true, List.length_cons]
        have hpre : v.isPrefixOf (x :: xs) = true := by
          simp only [wholeWordAt, Bool.and_eq_true] at hw
          exact hw.1.1
        obtain ⟨t, ht⟩ := List.isPrefixOf_iff_prefix.mp hpre
        obtain ⟨hne, hall⟩ := hv
        cases v with
        | nil => exact absurd rfl hne
        | cons c cs =>
          simp only [List.cons_append, List.cons.injEq] at ht
          obtain ⟨rfl, rfl⟩ := ht
          have hj : n + (c :: cs).length - n - 1 = cs.length := by simp
          rw [hj, occurrences_skip _ _ _ _ _ (by simp)]
          simp only [List.take_left', List.drop_left']
          rw [ih _ _ _ (by simp at h; omega)]
          rw [wholeWordCountFrom_skip (c :: cs) cs (fun c' hc' => hall c' (by simp [hc'])) (some c) t
            (hall c (by simp))]
          omega
      · simp only [hw, Bool.false_eq_true, if_false, zero_add]
        exact ih _ _ _ h

/-- The matches of the usage pattern of a name are its whole-word occurrences. -/
theorem matchAll_usage_length (v : JStr) (hv : IsName v) (text : JStr) :
    (matchAll (usagePattern v) text).length = wholeWordCount v text := by
  rw [matchAll_eq_occurrences]
  exact usage_count v hv text.length none 0 text (le_refl _)

theorem declarationPattern_capture (s e : MState) (hs : s.caps = [])
    (he : e ∈ run declarationPattern s) :
    ∃ st, e.caps = [(1, st, capText e 1)] ∧ IsName (capText e 1) := by
  simp only [declarationPattern, Regex.cat] at he
  obtain ⟨m1, hm1, he⟩ := mem_run_seq.mp he
  obtain ⟨m2, hm2, he⟩ := mem_run_seq.mp he
  obtain ⟨m3, hm3, he⟩ := mem_run_seq.mp he
  obtain ⟨m4, hm4, he⟩ := mem_run_seq.mp he
  obtain ⟨m5, hm5, he⟩ := mem_run_seq.mp he
  obtain ⟨m6, hm6, he⟩ := mem_run_seq.mp he
  obtain ⟨m7, hm7, he⟩ := mem_run_seq.mp he
  rw [run_eps, List.mem_singleton] at he
  subst he
  have c1 : m1.caps = s.caps := run_noGroup _ (by decide) s m1 hm1
  have c2 : m2.caps = m1.caps := run_noGroup _ (by decide) m1 m2 hm2
  have c3 : m3.caps = m2.caps := run_noGroup _ (by decide) m2 m3 hm3
  obtain ⟨w, _, hw1, hw2, c4⟩ := run_group_many1 1 .word m3 m4 hm4
  have c5 : m5.caps = m4.caps := run_noGroup _ (by decide) m4 m5 hm5
  have c6 : m6.caps = m5.caps := run_noGroup _ (by decide) m5 m6 hm6
  have c7 : e.caps = m6.caps := run_noGroup _ (by decide) m6 e hm7
  have hc : e.caps = [(1, m3.pos, w)] := by
    rw [c7, c6, c5, c4, c3, c2, c1, hs]
  have ht : capText e 1 = w := by simp [capText, hc, List.lookup]
  exact ⟨m3.pos, by rw [ht, hc], by rw [ht]; exact ⟨hw1, hw2⟩⟩

theorem matchAll_declaration_name (text : JStr) (d : Nat × MState)
    (hd : d ∈ matchAll declarationPattern text) : IsName (capText d.2 1) := by
  rw [matchAll_eq_occurrences] at hd
  obtain ⟨p, rest, h⟩ := occurrences_mem _ _ _ _ _ d hd
  obtain ⟨_, _, h2⟩ := declarationPattern_capture _ d.2 rfl h
  exact h2

/-! ## `computeComplexity` -/

theorem keywordPattern_blind : spaceBlind keywordPattern = true := by decide

theorem keywordPattern_eq : keywordPattern = .seq .wordB (.seq
    (.group 1 (.alts (.lit [105, 102])
      [.lit [102, 111, 114], .lit [102, 111, 114, 101, 97, 99, 104],
       .lit [119, 104, 105, 108, 101], .lit [99, 97, 115, 101],
       .lit [38, 38], .lit [124, 124, 63], .lit [99, 97, 116, 99, 104]]))
    (.seq .wordB .eps)) := by
  decide

theorem keywordPattern_nil (p : Option Nat) (n : Nat) :
    run keywordPattern ⟨p, n, [], []⟩ = [] := by
  rw [keywordPattern_eq]
  simp only [Regex.alts, Regex.lit, run]
  split_ifs <;> rfl

theorem keywordPattern_token (w : JStr) (hw : w ∈ wordKeywords) (p : Option Nat) (n : Nat) :
    (occurrences keywordPattern 0 p n (32 :: w)).length = 1 := by
  have h1 := run_spaceBlind keywordPattern keywordPattern_blind w ⟨p, n, [], []⟩
  simp only [extend, List.nil_append, keywordPattern_nil, List.map_nil] at h1
  simp only [occurrences, h1, List.head?_nil]
  rw [occurrences_length_pos]
  simp only [wordKeywords, List.mem_cons, List.mem_singleton, List.not_mem_nil, or_false] at hw
  rcases hw with rfl | rfl | rfl | rfl | rfl | rfl <;> decide

theorem computeComplexity_append_token (t w : JStr) (hw : w ∈ wordKeywords) :
    (computeComplexity (t ++ 32 :: w)).value = (computeComplexity t).value + 1 := by
  simp only [computeComplexity, matchAll_eq_occurrences]
  rw [occurrences_append_token keywordPattern keywordPattern_blind w keywordPattern_nil 1
    (keywordPattern_token w hw) t 0 none 0 (Nat.zero_le _)]
  omega

/-! ## `booleanSimplifier` -/

theorem booleanPattern_progress (s e : MState) (he : e ∈ run booleanPattern s) :
    s.pos < e.pos := by
  simp only [booleanPattern, Regex.cat] at he
  obtain ⟨m1, hm1, he⟩ := mem_run_seq.mp he
  have h1 : m1.pos = s.pos + 1 := by
    simp only [run] at hm1
    split at hm1
    · simp at hm1
    · split_ifs at hm1
      · simp only [List.mem_singleton] at hm1; rw [hm1]
      · simp at hm1
  have h2 := (run_pos _ m1 e he).1
  omega

theorem booleanPattern_capture (s e : MState) (hs : s.caps = [])
    (he : e ∈ run booleanPattern s) :
    IsName (capText e 1) ∧ IsName (capText e 2) := by
  simp only [booleanPattern, Regex.cat] at he
  obtain ⟨m1, hm1, he⟩ := mem_run_seq.mp he
  obtain ⟨m2, hm2, he⟩ := mem_run_seq.mp he
  obtain ⟨m3, hm3, he⟩ := mem_run_seq.mp he
  obtain ⟨m4, hm4, he⟩ := mem_run_seq.mp he
  obtain ⟨m5, hm5, he⟩ := mem_run_seq.mp he
  obtain ⟨m6, hm6, he⟩ := mem_run_seq.mp he
  obtain ⟨m7, hm7, he⟩ := mem_run_seq.mp he
  obtain ⟨m8, hm8, he⟩ := mem_run_seq.mp he
  obtain ⟨m9, hm9, he⟩ := mem_run_seq.mp he
  obtain ⟨m10, hm10, he⟩ := mem_run_seq.mp he
  obtain ⟨m11, hm11, he⟩ := mem_run_seq.mp he
  obtain ⟨m12, hm12, he⟩ := mem_run_seq.mp he
  obtain ⟨m13, hm13, he⟩ := mem_run_seq.mp he
  obtain ⟨m14, hm14, he⟩ := mem_run_seq.mp he
  obtain ⟨m15, hm15, he⟩ := mem_run_seq.mp he
  rw [run_eps, List.mem_singleton] at he
  subst he
  have c1 : m1.caps = s.caps := run_noGroup _ (by decide) s m1 hm1
  obtain ⟨w1, _, hw1, hw1', c2⟩ := run_group_many1 1 .word m1 m2 hm2
  have c3 : m3.caps = m2.caps := run_noGroup _ (by decide) m2 m3 hm3
  have c4 : m4.caps = m3.caps := run_noGroup _ (by decide) m3 m4 hm4
  have c5 : m5.caps = m4.caps := run_noGroup _ (by decide) m4 m5 hm5
  have c6 : m6.caps = m5.caps := run_noGroup _ (by decide) m5 m6 hm6
  have c7 : m7.caps = m6.caps := run_noGroup _ (by decide) m6 m7 hm7
  have c8 : m8.caps = m7.caps := run_noGroup _ (by decide) m7 m8 hm8
  have c9 : m9.caps = m8.caps := run_noGroup _ (by decide) m8 m9 hm9
  obtain ⟨w2, _, hw2, hw2', c10⟩ := run_group_many1 2 .word m9 m10 hm10
  have c11 : m11.caps = m10.caps := run_noGroup _ (by decide) m10 m11 hm11
  have c12 : m12.caps = m11.caps := run_noGroup _ (by decide) m11 m12 hm12
  have c13 : m13.caps = m12.caps := run_noGroup _ (by decide) m12 m13 hm13
  have c14 : m14.caps = m13.caps := run_noGroup _ (by decide) m13 m14 hm14
  have c15 : e.caps = m14.caps := run_noGroup _ (by decide) m14 e hm15
  have hc : e.caps = [(2, m9.pos, w2), (1, m1.pos, w1)] := by
    rw [c15, c14, c13, c12, c11, c10, c9, c8, c7, c6, c5, c4, c3, c2, c1, hs]
  have ht1 : capText e 1 = w1 := by simp [capText, hc, List.lookup]
  have ht2 : capText e 2 = w2 := by simp [capText, hc, List.lookup]
  rw [ht1, ht2]
  exact ⟨⟨hw1, hw1'⟩, ⟨hw2, hw2'⟩⟩

theorem hintsLoop_eq_occurrences (m : Nat) :
    ∀ (pre rest : JStr) (fuel : Nat), rest.length ≤ m → rest.length + 1 ≤ fuel →
      hintsLoop (pre ++ rest) fuel pre.length =
        some ((occurrences booleanPattern 0 (prevAfter none pre) pre.length rest).map hintOf) := by
  induction m using Nat.strong_induction_on with
  | _ m ih =>
    intro pre rest fuel hm hf
    obtain ⟨f, rfl⟩ : ∃ f, fuel = f + 1 := ⟨fuel - 1, by omega⟩
    rw [occurrences_eq_execFrom]
    simp only [hintsLoop, exec_append]
    cases h : execFrom booleanPattern (prevAfter none pre) pre.length rest with
    | none => rfl
    | some v =>
      obtain ⟨idx, e⟩ := v
      have hb := execFrom_bounds _ rest _ _ _ _ h
      obtain ⟨pre', suf, _, _, h3⟩ := execFrom_some _ rest _ _ _ _ h
      have hprog := booleanPattern_progress _ e (List.mem_of_mem_head? h3)
      simp only at hprog
      simp only
      have hlt : idx - pre.length < rest.length := by omega
      rw [if_pos hlt]
      have hj : max (e.pos - pre.length) (idx - pre.length + 1) = e.pos - pre.length := by omega
      rw [hj]
      set j := e.pos - pre.length with hjdef
      have hjle : j ≤ rest.length := by omega
      have hli : e.pos = (pre ++ rest.take j).length := by
        rw [List.length_append, List.length_take, min_eq_left hjle]
        omega
      have htext : pre ++ rest = (pre ++ rest.take j) ++ rest.drop j := by
        rw [List.append_assoc, List.take_append_drop]
      rw [hli, htext, ih (rest.drop j).length (by rw [List.length_drop]; omega)
        (pre ++ rest.take j) (rest.drop j) f (le_refl _) (by rw [List.length_drop]; omega)]
      rw [prevAfter_append, List.length_append, List.length_take, min_eq_left hjle]
      simp only [Option.map_some', List.map_cons, hintOf]

theorem renderItems_isEmpty (hints : List JStr) : (renderItems hints).isEmpty = hints.isEmpty := by
  cases hints with
  | nil => rfl
  | cons h hs =>
    have : utf16 "<li>" = [60, 108, 105, 62] := by decide
    simp [renderItems, this]

/-! ## `showGhostSuggestion` -/

theorem mem_run_chr {c : Nat} {s e : MState} (he : e ∈ run (.chr c) s) : s.rest = c :: e.rest := by
  simp only [run] at he
  split at he
  · simp at he
  · rename_i x xs hrest
    split_ifs at he with hx
    · simp only [List.mem_singleton] at he
      rw [he, hrest, hx]
    · simp at he

theorem mem_run_lit {w : JStr} {s e : MState} (he : e ∈ run (.lit w) s) : s.rest = w ++ e.rest := by
  rw [run_lit] at he
  split_ifs at he with hp
  · simp only [List.mem_singleton] at he
    obtain ⟨t, ht⟩ := List.isPrefixOf_iff_prefix.mp hp
    rw [he, ← ht]
    simp
  · simp at he

theorem mem_run_eoi {s e : MState} (he : e ∈ run .eoi s) : s.rest = [] := by
  simp only [run] at he
  split_ifs at he with h
  · exact List.isEmpty_iff.mp h
  · simp at he

theorem mem_run_many {k : Cls} {s e : MState} (he : e ∈ run (.many k) s) :
    ∃ ws, (∀ c ∈ ws, k.test c = true) ∧ s.rest = ws ++ e.rest := by
  simp only [run] at he
  obtain ⟨ws, h1, h2, _⟩ := runMany_reads k _ _ _ _ e he
  exact ⟨ws, h1, h2⟩

theorem test_suffix (r : Regex) (text : JStr) (h : r.test text = true) :
    ∃ pre suf p n e, text = pre ++ suf ∧ e ∈ run r ⟨p, n, suf, []⟩ := by
  simp only [Regex.test, exec, Option.isSome_iff_exists] at h
  obtain ⟨⟨idx, e⟩, h⟩ := h
  rw [if_neg (by omega), List.drop_zero] at h
  obtain ⟨pre, suf, h1, _, h3⟩ := execFrom_some r text _ _ _ _ h
  exact ⟨pre, suf, _, _, e, h1, List.mem_of_mem_head? h3⟩

theorem wherePattern_suffix (text : JStr) (h : wherePattern.test text = true) :
    ∃ pre, text = pre ++ [46, 87, 104, 101, 114, 101, 40] := by
  obtain ⟨pre, suf, p, n, e, h1, he⟩ := test_suffix _ _ h
  simp only [wherePattern, Regex.cat] at he
  obtain ⟨m1, hm1, he⟩ := mem_run_seq.mp he
  obtain ⟨m2, hm2, he⟩ := mem_run_seq.mp he
  obtain ⟨m3, hm3, he⟩ := mem_run_seq.mp he
  obtain ⟨m4, hm4, he⟩ := mem_run_seq.mp he
  have a1 := mem_run_chr hm1
  have a2 := mem_run_lit hm2
  have a3 := mem_run_chr hm3
  have a4 := mem_run_eoi hm4
  have hW : utf16 "Where" = [87, 104, 101, 114, 101] := by decide
  simp only at a1
  refine ⟨pre, ?_⟩
  rw [h1, a1, a2, a3, a4, hW]
  rfl

theorem writeLinePattern_suffix (text : JStr) (h : writeLinePattern.test text = true) :
    ∃ pre, text = pre ++ [110, 101, 40] := by
  obtain ⟨pre, suf, p, n, e, h1, he⟩ := test_suffix _ _ h
  simp only [writeLinePattern, Regex.cat] at he
  obtain ⟨m1, hm1, he⟩ := mem_run_seq.mp he
  obtain ⟨m2, hm2, he⟩ := mem_run_seq.mp he
  obtain ⟨m3, hm3, he⟩ := mem_run_seq.mp he
  obtain ⟨m4, hm4, he⟩ := mem_run_seq.mp he
  obtain ⟨m5, hm5, he⟩ := mem_run_seq.mp he
  have a1 := mem_run_lit hm1
  have a2 := mem_run_chr hm2
  have a3 := mem_run_lit hm3
  have a4 := mem_run_chr hm4
  have a5 := mem_run_eoi hm5
  have hW : utf16 "WriteLine" = [87, 114, 105, 116, 101, 76, 105] ++ [110, 101] := by decide
  simp only at a1
  refine ⟨pre ++ utf16 "Console" ++ [46] ++ [87, 114, 105, 116, 101, 76, 105], ?_⟩
  rw [h1, a1, a2, a3, a4, a5, hW]
  simp

theorem forPattern_suffix (text : JStr) (h : forPattern.test text = true) :
    ∃ pre x, text = pre ++ [x, 40] ∧ (x = 114 ∨ isSpace x = true) := by
  obtain ⟨pre, suf, p, n, e, h1, he⟩ := test_suffix _ _ h
  simp only [forPattern, Regex.cat] at he
  obtain ⟨m1, hm1, he⟩ := mem_run_seq.mp he
  obtain ⟨m2, hm2, he⟩ := mem_run_seq.mp he
  obtain ⟨m3, hm3, he⟩ := mem_run_seq.mp he
  obtain ⟨m4, hm4, he⟩ := mem_run_seq.mp he
  have a1 := mem_run_lit hm1
  obtain ⟨ws, hws, a2⟩ := mem_run_many hm2
  have a3 := mem_run_chr hm3
  have a4 := mem_run_eoi hm4
  have hF : utf16 "for" = [102, 111] ++ [114] := by decide
  simp only at a1
  rcases List.eq_nil_or_concat ws with rfl | ⟨l, x, rfl⟩
  · refine ⟨pre ++ [102, 111], 114, ?_, Or.inl rfl⟩
    rw [h1, a1, a2, a3, a4, hF]
    simp
  · refine ⟨pre ++ utf16 "for" ++ l, x, ?_, Or.inr (hws x (by simp))⟩
    rw [h1, a1, a2, a3, a4]
    simp

/-- At most one of the three trailing patterns matches a given line. -/
theorem ghost_patterns_exclusive (line : JStr) :
    ¬ (wherePattern.test line = true ∧ forPattern.test line = true) ∧
    ¬ (wherePattern.test line = true ∧ writeLinePattern.test line = true) ∧
    ¬ (forPattern.test line = true ∧ writeLinePattern.test line = true) := by
  refine ⟨?_, ?_, ?_⟩
  · rintro ⟨h1, h2⟩
    obtain ⟨p1, e1⟩ := wherePattern_suffix line h1
    obtain ⟨p2, x, e2, hx⟩ := forPattern_suffix line h2
    have := congrArg List.reverse e1
    rw [e2] at this
    simp only [List.reverse_append, List.reverse_cons, List.reverse_nil, List.nil_append,
      List.cons_append, List.singleton_append, List.cons.injEq] at this
    obtain ⟨_, hx', _⟩ := this
    subst hx'
    rcases hx with h | h
    · exact absurd h (by decide)
    · exact absurd h (by decide)
  · rintro ⟨h1, h2⟩
    obtain ⟨p1, e1⟩ := wherePattern_suffix line h1
    obtain ⟨p2, e2⟩ := writeLinePattern_suffix line h2
    have := congrArg List.reverse e1
    rw [e2] at this
    simp only [List.reverse_append, List.reverse_cons, List.reverse_nil, List.nil_append,
      List.cons_append, List.singleton_append, List.cons.injEq] at this
    obtain ⟨_, _, h, _⟩ := this
    exact absurd h (by decide)
  · rintro ⟨h1, h2⟩
    obtain ⟨p1, x, e1, hx⟩ := forPattern_suffix line h1
    obtain ⟨p2, e2⟩ := writeLinePattern_suffix line h2
    have := congrArg List.reverse e1
    rw [e2] at this
    simp only [List.reverse_append, List.reverse_cons, List.reverse_nil, List.nil_append,
      List.cons_append, List.singleton_append, List.cons.injEq] at this
    obtain ⟨_, hx', _⟩ := this
    subst hx'
    rcases hx with h | h
    · exact absurd h (by decide)
    · exact absurd h (by decide)

theorem ghostSuggestionOf_eq_firstMatchWins (line : JStr) :
    ghostSuggestionOf line = firstMatchWins ghostTable (trim line) := by
  obtain ⟨x1, x2, x3⟩ := ghost_patterns_exclusive (trim line)
  simp only [ghostSuggestionOf, firstMatchWins, ghostTable]
  by_cases h1 : wherePattern.test (trim line) = true
  · have h2 : ¬ forPattern.test (trim line) = true := fun h => x1 ⟨h1, h⟩
    have h3 : ¬ writeLinePattern.test (trim line) = true := fun h => x2 ⟨h1, h⟩
    simp [h1, h2, h3]
  · by_cases h2 : forPattern.test (trim line) = true
    · have h3 : ¬ writeLinePattern.test (trim line) = true := fun h => x3 ⟨h2, h⟩
      simp [h1, h2, h3]
    · simp [h1, h2]

/-- C1: for a non-empty array of lines and an in-range current line,
`findFunctionBounds` returns `end >= start`; and `getLines` / `caretLine` only
produce such arguments (a non-empty array and an index inside it). -/
theorem findFunctionBounds_end_ge_start (lines : List JStr) (currentLine : Nat)
    (hne : lines ≠ []) (hcur : currentLine < lines.length) :
    (findFunctionBounds lines currentLine).start ≤ (findFunctionBounds lines currentLine).«end» ∧
    ∀ (value : JStr) (selectionStart : Nat),
      getLines value ≠ [] ∧ caretLine value selectionStart < (getLines value).length := by
  refine ⟨?_, fun value sel => ⟨split_ne_nil 10 value, caretLine_lt value sel⟩⟩
  have hstart : (scanStart lines currentLine).getD 0 < lines.length := by
    cases h : scanStart lines currentLine with
    | none => simpa using List.length_pos.mpr hne
    | some i =>
      have := (scanStart_le lines currentLine i h).1
      simp only [Option.getD_some]
      omega
  exact (findEnd_spec lines _ hstart).1

theorem findFunctionBounds_end_ge_start_witness :
    (findFunctionBounds [utf16 "public void f() \x7b", utf16 "\x7d", utf16 "x"] 2).start ≤
      (findFunctionBounds [utf16 "public void f() \x7b", utf16 "\x7d", utf16 "x"] 2).«end» ∧
    ∀ (value : JStr) (selectionStart : Nat),
      getLines value ≠ [] ∧ caretLine value selectionStart < (getLines value).length :=
  findFunctionBounds_end_ge_start [utf16 "public void f() \x7b", utf16 "\x7d", utf16 "x"] 2
    (by decide) (by decide)

/-- C2 as stated fails: with the signature on line 0, its block closed on line 1
and the cursor on line 3, the bounds are `{start: 0, end: 1}` and do not
enclose the cursor line. -/
theorem findFunctionBounds_encloses_counterexample :
    [utf16 "public void f() \x7b", utf16 "\x7d", utf16 "", utf16 "int x"] ≠ [] ∧
    3 < [utf16 "public void f() \x7b", utf16 "\x7d", utf16 "", utf16 "int x"].length ∧
    (∃ j, j ≤ 3 ∧ signaturePattern.test
      (lineAt [utf16 "public void f() \x7b", utf16 "\x7d", utf16 "", utf16 "int x"] j) = true) ∧
    findFunctionBounds [utf16 "public void f() \x7b", utf16 "\x7d", utf16 "", utf16 "int x"] 3
      = { start := 0, «end» := 1 } ∧
    ¬ (3 ≤ (findFunctionBounds
      [utf16 "public void f() \x7b", utf16 "\x7d", utf16 "", utf16 "int x"] 3).«end») := by
  refine ⟨by decide, by decide, ⟨0, by decide, by decide⟩, by decide, by decide⟩

/-- C2, amended: for an in-range current line (so a non-empty array), when some
line at an index `<= currentLine` matches the signature pattern, `start` is the nearest such line at or above the cursor
(`start <= currentLine`, line `start` matches, no line in between does),
`start <= end`, and the cursor line is enclosed (`currentLine <= end`) exactly
when the running brace balance from `start` is non-zero at every line strictly
between `start` and `currentLine`. -/
theorem findFunctionBounds_encloses_iff (lines : List JStr) (currentLine : Nat)
    (hcur : currentLine < lines.length)
    (hsig : ∃ j, j ≤ currentLine ∧ signaturePattern.test (lineAt lines j) = true) :
    let b := findFunctionBounds lines currentLine
    b.start ≤ currentLine ∧ b.start ≤ b.«end» ∧
    signaturePattern.test (lineAt lines b.start) = true ∧
    (∀ j, b.start < j → j ≤ currentLine → signaturePattern.test (lineAt lines j) = false) ∧
    (currentLine ≤ b.«end» ↔
      ∀ i, b.start < i → i < currentLine → balance lines b.start i ≠ 0) := by
  intro b
  obtain ⟨j, hj, hjt⟩ := hsig
  cases h : scanStart lines currentLine with
  | none =>
    have := (scanStart_none lines currentLine).mp h j hj
    rw [this] at hjt
    exact absurd hjt (by decide)
  | some s =>
    obtain ⟨h1, h2, h3⟩ := scanStart_le lines currentLine s h
    have hbs : b.start = s := by simp [b, findFunctionBounds, h]
    have hslt : s < lines.length := by omega
    have hbe : b.«end» = (scanEnd s (lines.drop s) s 0).getD (lines.length - 1) := by
      simp [b, findFunctionBounds, h]
    obtain ⟨e1, e2, e3, e4, e5⟩ := findEnd_spec lines s hslt
    rw [hbs, hbe]
    refine ⟨h1, e1, h2, h3, ?_, ?_⟩
    · intro hce i hi1 hi2
      exact e3 i hi1 (by omega)
    · intro hall
      by_contra hlt
      push_neg at hlt
      have := e4 (by omega)
      exact hall _ this.1 hlt this.2

theorem findFunctionBounds_encloses_iff_witness :
    let b := findFunctionBounds [utf16 "public void f()", utf16 "\x7b", utf16 "x", utf16 "\x7d"] 2
    b.start ≤ 2 ∧ b.start ≤ b.«end» ∧
    signaturePattern.test
      (lineAt [utf16 "public void f()", utf16 "\x7b", utf16 "x", utf16 "\x7d"] b.start) = true ∧
    (∀ j, b.start < j → j ≤ 2 → signaturePattern.test
      (lineAt [utf16 "public void f()", utf16 "\x7b", utf16 "x", utf16 "\x7d"] j) = false) ∧
    (2 ≤ b.«end» ↔ ∀ i, b.start < i → i < 2 →
      balance [utf16 "public void f()", utf16 "\x7b", utf16 "x", utf16 "\x7d"] b.start i ≠ 0) :=
  findFunctionBounds_encloses_iff [utf16 "public void f()", utf16 "\x7b", utf16 "x", utf16 "\x7d"] 2
    (by decide) ⟨0, by decide, by decide⟩

/-- C3 as stated fails: with no signature line at all and the cursor on line 0
of three lines, the brace scan still runs from line 0 and stops at line 1, so
`end` is 1 and not the last line 2. -/
theorem findFunctionBounds_whole_document_counterexample :
    [utf16 "a", utf16 "b", utf16 "c"] ≠ [] ∧
    0 < [utf16 "a", utf16 "b", utf16 "c"].length ∧
    (∀ j, j ≤ 0 → signaturePattern.test (lineAt [utf16 "a", utf16 "b", utf16 "c"] j) = false) ∧
    findFunctionBounds [utf16 "a", utf16 "b", utf16 "c"] 0 = { start := 0, «end» := 1 } ∧
    (findFunctionBounds [utf16 "a", utf16 "b", utf16 "c"] 0).«end» ≠
      [utf16 "a", utf16 "b", utf16 "c"].length - 1 := by
  refine ⟨by decide, by decide, ?_, by decide, by decide⟩
  intro j hj
  have : j = 0 := by omega
  subst this
  decide

/-- C3, amended: for a non-empty array of lines, when no line at an index
`<= currentLine` matches the signature pattern, `start = 0`, and `end` is the first line after line 0 at which the
running brace balance from line 0 is zero; `end` is the last line
`lines.length - 1` when there is no such line (in particular for a one-line
text). -/
theorem findFunctionBounds_no_signature (lines : List JStr) (currentLine : Nat)
    (hne : lines ≠ [])
    (hnone : ∀ j, j ≤ currentLine → signaturePattern.test (lineAt lines j) = false) :
    let b := findFunctionBounds lines currentLine
    b.start = 0 ∧
    (∀ i, 0 < i → i < lines.length → balance lines 0 i = 0 →
      (∀ j, 0 < j → j < i → balance lines 0 j ≠ 0) → b.«end» = i) ∧
    ((∀ i, 0 < i → i < lines.length → balance lines 0 i ≠ 0) → b.«end» = lines.length - 1) := by
  intro b
  have h := (scanStart_none lines currentLine).mpr hnone
  have hbs : b.start = 0 := by simp [b, findFunctionBounds, h]
  have hbe : b.«end» = (scanEnd 0 (lines.drop 0) 0 0).getD (lines.length - 1) := by
    simp [b, findFunctionBounds, h]
  have hpos : 0 < lines.length := List.length_pos.mpr hne
  obtain ⟨e1, e2, e3, e4, e5⟩ := findEnd_spec lines 0 hpos
  rw [hbe]
  refine ⟨hbs, ?_, ?_⟩
  · intro i hi1 hi2 hi3 hi4
    by_contra hne'
    rcases Nat.lt_or_gt_of_ne hne' with hlt | hgt
    · have := e4 (by omega)
      exact hi4 _ this.1 hlt this.2
    · exact e3 i hi1 hgt hi3
  · intro hall
    by_contra hne'
    have := e4 (by omega)
    exact hall _ this.1 e2 this.2

theorem findFunctionBounds_no_signature_witness :
    let b := findFunctionBounds [utf16 "a \x7b", utf16 "b", utf16 "c"] 1
    b.start = 0 ∧
    (∀ i, 0 < i → i < [utf16 "a \x7b", utf16 "b", utf16 "c"].length →
      balance [utf16 "a \x7b", utf16 "b", utf16 "c"] 0 i = 0 →
      (∀ j, 0 < j → j < i → balance [utf16 "a \x7b", utf16 "b", utf16 "c"] 0 j ≠ 0) →
      b.«end» = i) ∧
    ((∀ i, 0 < i → i < [utf16 "a \x7b", utf16 "b", utf16 "c"].length →
      balance [utf16 "a \x7b", utf16 "b", utf16 "c"] 0 i ≠ 0) →
      b.«end» = [utf16 "a \x7b", utf16 "b", utf16 "c"].length - 1) :=
  findFunctionBounds_no_signature [utf16 "a \x7b", utf16 "b", utf16 "c"] 1 (by decide)
    (by
      intro j hj
      interval_cases j <;> decide)

/-! ## The claims on `drawFlowMappings` -/

/-- C4, evaluated where it fails: in a text that declares the same name twice,
the second declaration (name at offset 15, line 2) gets a connector to offset
15, line 2: its own occurrence.  `slice(1, 4)` drops the first occurrence in
the text, which is not the declaration's own one here. -/
theorem drawFlowMappings_links_declaration_to_itself :
    drawFlowMappings true (utf16 "int x = 1;\nint x = 2;") =
      [{ varName := utf16 "x", index := 0, nameIndex := some 4,
         links := [{ index := 15, declLine := 1, usageLine := 2 }] },
       { varName := utf16 "x", index := 11, nameIndex := some 15,
         links := [{ index := 15, declLine := 2, usageLine := 2 }] }] := by
  decide

/-- C5: for every declaration processed by `drawFlowMappings`, the number of
connectors drawn is `min 3 (N - 1)` (subtraction truncated at 0), `N` the number
of whole-word occurrences of its name in the text, hence at most 3; at most 8
declarations are processed; a declaration of `total` followed by three more
occurrences gets 3 connectors, one that is the only occurrence gets none. -/
theorem drawFlowMappings_link_count (flowChecked : Bool) (text : JStr) :
    (drawFlowMappings flowChecked text).length ≤ 8 ∧
    (∀ f ∈ drawFlowMappings flowChecked text,
      f.links.length = min 3 (wholeWordCount f.varName text - 1) ∧ f.links.length ≤ 3) ∧
    (drawFlowMappings true
        (utf16 "int total = 0;\ntotal += 1;\ntotal += 2;\nreturn total;")).map
      (fun f => (f.varName, f.links.length)) = [(utf16 "total", 3)] ∧
    (drawFlowMappings true (utf16 "int total = 0;")).map
      (fun f => (f.varName, f.links.length)) = [(utf16 "total", 0)] := by
  refine ⟨?_, ?_, by decide, by decide⟩
  · cases flowChecked
    · simp [drawFlowMappings]
    · simp only [drawFlowMappings, retainedDeclarations, Bool.not_true, Bool.false_eq_true,
        if_false, List.length_map, List.length_take]
      exact Nat.min_le_left _ _
  · intro f hf
    cases flowChecked
    · simp [drawFlowMappings] at hf
    · simp only [drawFlowMappings, Bool.not_true, Bool.false_eq_true, if_false,
        List.mem_map] at hf
      obtain ⟨d, hd, rfl⟩ := hf
      have hname := matchAll_declaration_name text d (List.mem_of_mem_take hd)
      have hlen : (flowOfDecl text d).links.length
          = min 3 (wholeWordCount (flowOfDecl text d).varName text - 1) := by
        simp only [flowOfDecl, usageMatches, List.length_map, List.length_take, List.length_drop,
          matchAll_usage_length _ hname]
      exact ⟨hlen, by rw [hlen]; exact Nat.min_le_left _ _⟩

/-! ## The claims on `computeComplexity` -/

/-- C6: the score is `1 + k`, `k` the number of matches of the keyword pattern
(the non-overlapping occurrences, left to right), so it is at least 1; the band
is High exactly above 10, Medium exactly from 7 to 10, Low exactly up to 6;
a text without a match scores 1 (Low), one with 7 matches scores 8 (Medium), and
the scores 6, 7, 10, 11 are Low, Medium, Medium, High. -/
theorem computeComplexity_score_and_band (text : JStr) :
    (computeComplexity text).value = 1 + (matchAll keywordPattern text).length ∧
    (computeComplexity text).value = 1 + (occurrences keywordPattern 0 none 0 text).length ∧
    1 ≤ (computeComplexity text).value ∧
    ((computeComplexity text).band = Band.High ↔ (computeComplexity text).value > 10) ∧
    ((computeComplexity text).band = Band.Medium ↔
      7 ≤ (computeComplexity text).value ∧ (computeComplexity text).value ≤ 10) ∧
    ((computeComplexity text).band = Band.Low ↔ (computeComplexity text).value ≤ 6) ∧
    computeComplexity (utf16 "int x = 1;") = { value := 1, band := Band.Low } ∧
    computeComplexity (utf16 "if for foreach while case catch if")
      = { value := 8, band := Band.Medium } ∧
    computeComplexity (utf16 "if if if if if") = { value := 6, band := Band.Low } ∧
    computeComplexity (utf16 "if if if if if if") = { value := 7, band := Band.Medium } ∧
    computeComplexity (utf16 "if if if if if if if if if") = { value := 10, band := Band.Medium } ∧
    computeComplexity (utf16 "if if if if if if if if if if")
      = { value := 11, band := Band.High } := by
  refine ⟨rfl, by rw [← matchAll_eq_occurrences]; rfl, by simp [computeComplexity], ?_, ?_, ?_,
    by decide, by decide, by decide, by decide, by decide, by decide⟩
  · simp only [computeComplexity]
    split_ifs <;> simp <;> omega
  · simp only [computeComplexity]
    split_ifs <;> simp <;> omega
  · simp only [computeComplexity]
    split_ifs <;> simp <;> omega

/-- C7 as stated fails for the operator alternatives: `&&` (and likewise `||?`)
added as a separate token after a space is not matched, because `\b` needs a
word character next to it, and the score stays the same. -/
theorem computeComplexity_add_operator_counterexample :
    ¬ ((computeComplexity (utf16 "a" ++ 32 :: utf16 "&&")).value
        > (computeComplexity (utf16 "a")).value) ∧
    ¬ ((computeComplexity (utf16 "a" ++ 32 :: utf16 "||?")).value
        > (computeComplexity (utf16 "a")).value) := by
  decide

/-- C7, amended: for every text `t` and every word keyword `k` of the pattern
(`if`, `for`, `foreach`, `while`, `case`, `catch`), the score of `t` followed by
a space and `k` is the score of `t` plus one, hence strictly greater. -/
theorem computeComplexity_add_word_keyword (t k : JStr) (hk : k ∈ wordKeywords) :
    (computeComplexity (t ++ 32 :: k)).value = (computeComplexity t).value + 1 ∧
    (computeComplexity (t ++ 32 :: k)).value > (computeComplexity t).value := by
  have h := computeComplexity_append_token t k hk
  exact ⟨h, by omega⟩

theorem computeComplexity_add_word_keyword_witness :
    (computeComplexity (utf16 "if (a) b;" ++ 32 :: utf16 "foreach")).value
      = (computeComplexity (utf16 "if (a) b;")).value + 1 ∧
    (computeComplexity (utf16 "if (a) b;" ++ 32 :: utf16 "foreach")).value
      > (computeComplexity (utf16 "if (a) b;")).value :=
  computeComplexity_add_word_keyword (utf16 "if (a) b;") (utf16 "foreach") (by decide)

/-! ## The claim on `showGhostSuggestion` -/

/-- C9: the text shown by `showGhostSuggestion` is the completion of the first
entry of the table whose pattern matches the trimmed prefix of the cursor's line,
and is empty when no entry matches: the three overwriting tests agree with
first-match-wins. -/
theorem showGhostSuggestion_first_match_wins (value : JStr) (selectionStart : Nat) :
    (showGhostSuggestion value selectionStart).text =
      firstMatchWins ghostTable (trim (lastLine (value.take selectionStart))) ∧
    ((∀ entry ∈ ghostTable, entry.1.test (trim (lastLine (value.take selectionStart))) = false) →
      (showGhostSuggestion value selectionStart).text = []) := by
  have h : (showGhostSuggestion value selectionStart).text =
      firstMatchWins ghostTable (trim (lastLine (value.take selectionStart))) := by
    rw [← ghostSuggestionOf_eq_firstMatchWins]
    simp only [showGhostSuggestion]
    split_ifs with he
    · exact (List.isEmpty_iff.mp he).symm
    · rfl
  refine ⟨h, fun hall => ?_⟩
  rw [h]
  simp only [ghostTable, List.mem_cons, List.mem_singleton, List.not_mem_nil, or_false,
    forall_eq_or_imp, forall_eq] at hall
  simp [firstMatchWins, ghostTable, hall.1, hall.2.1, hall.2.2]

/-! ## The claim on `booleanSimplifier` -/

/-- C8 as stated fails when the simplifier is switched off: the text has one
occurrence of the pattern, yet the output is the "paused" sentinel and holds no
hint. -/
theorem booleanSimplifier_paused_counterexample :
    (occurrences booleanPattern 0 none 0 (utf16 "(flag == false && other == false)")).length = 1 ∧
    booleanSimplifier false (utf16 "(flag == false && other == false)") 34
      = some (utf16 "<li>Simplifier paused.</li>") ∧
    booleanSimplifier false (utf16 "(flag == false && other == false)") 34
      ≠ some (renderItems [hintText (utf16 "flag") (utf16 "other")]) := by
  decide

/-- C8, amended: with the boolean toggle checked, the loop ends (any fuel above
the text length suffices) and the output holds exactly one hint per
non-overlapping occurrence of the pattern, taken left to right, in document
order, or the "no simplifications" sentinel when there is none; the two
captures of an occurrence are non-empty runs of word characters and its hint is
`Consider: (!X && !Y) âžœ !( X || Y )`; with the toggle unchecked the output is
the "paused" sentinel.  The input `(flag == false && other == false)` yields
exactly one hint, proposing `!( flag || other )`. -/
theorem booleanSimplifier_hints (text : JStr) (fuel : Nat) (hfuel : text.length + 1 ≤ fuel) :
    booleanSimplifier true text fuel =
      some (if (occurrences booleanPattern 0 none 0 text).isEmpty then noHintSentinel
        else renderItems ((occurrences booleanPattern 0 none 0 text).map hintOf)) ∧
    (∀ m ∈ occurrences booleanPattern 0 none 0 text,
      IsName (capText m.2 1) ∧ IsName (capText m.2 2) ∧
      hintOf m = utf16 "Consider: (!" ++ capText m.2 1 ++ utf16 " && !" ++ capText m.2 2 ++
        utf16 ") âžœ !( " ++ capText m.2 1 ++ utf16 " || " ++ capText m.2 2 ++ utf16 " )") ∧
    booleanSimplifier false text fuel = some pausedSentinel ∧
    booleanSimplifier true (utf16 "(flag == false && other == false)") 34 =
      some (utf16 "<li>Consider: (!flag && !other) âžœ !( flag || other )</li>") := by
  refine ⟨?_, ?_, rfl, by decide⟩
  · have h := hintsLoop_eq_occurrences text.length [] text fuel (le_refl _) hfuel
    simp only [List.nil_append, List.length_nil, prevAfter] at h
    have hemp : ((occurrences booleanPattern 0 none 0 text).map hintOf).isEmpty
        = (occurrences booleanPattern 0 none 0 text).isEmpty := by
      cases occurrences booleanPattern 0 none 0 text <;> rfl
    simp only [booleanSimplifier, Bool.not_true, Bool.false_eq_true, if_false, h,
      Option.map_some', renderItems_isEmpty, hemp]
  · intro m hm
    obtain ⟨p, rest, h⟩ := occurrences_mem _ _ _ _ _ m hm
    obtain ⟨h1, h2⟩ := booleanPattern_capture _ m.2 rfl h
    exact ⟨h1, h2, rfl⟩

theorem booleanSimplifier_hints_witness :
    booleanSimplifier true (utf16 "if ((a == false && b == false) || (c==false&&d==false))") 60 =
      some (if (occurrences booleanPattern 0 none 0
          (utf16 "if ((a == false && b == false) || (c==false&&d==false))")).isEmpty
        then noHintSentinel
        else renderItems ((occurrences booleanPattern 0 none 0
          (utf16 "if ((a == false && b == false) || (c==false&&d==false))")).map hintOf)) ∧
    (∀ m ∈ occurrences booleanPattern 0 none 0
        (utf16 "if ((a == false && b == false) || (c==false&&d==false))"),
      IsName (capText m.2 1) ∧ IsName (capText m.2 2) ∧
      hintOf m = utf16 "Consider: (!" ++ capText m.2 1 ++ utf16 " && !" ++ capText m.2 2 ++
        utf16 ") âžœ !( " ++ capText m.2 1 ++ utf16 " || " ++ capText m.2 2 ++ utf16 " )") ∧
    booleanSimplifier false (utf16 "if ((a == false && b == false) || (c==false&&d==false))") 60
      = some pausedSentinel ∧
    booleanSimplifier true (utf16 "(flag == false && other == false)") 34 =
      some (utf16 "<li>Consider: (!flag && !other) âžœ !( flag || other )</li>") :=
  booleanSimplifier_hints (utf16 "if ((a == false && b == false) || (c==false&&d==false))") 60
    (by decide)

/-! ## The claim on `restoreSnapshot` -/

/-- C10 as stated fails: for a stored string on which `JSON.parse` throws, the
call does not end in the "no snapshot" outcome; the exception leaves
`restoreSnapshot` (the page is left as it was). -/
theorem restoreSnapshot_corrupted_counterexample :
    parseOnly (utf16 "null") ⟨[], [], 0, 0⟩ (utf16 "\x7boops") = none ∧
    restoreSnapshot (parseOnly (utf16 "null") ⟨[], [], 0, 0⟩) (fun _ => utf16 "12:00:00")
        (some (utf16 "\x7boops")) ⟨utf16 "int x;", utf16 "notes", 3, []⟩
      = (⟨utf16 "int x;", utf16 "notes", 3, []⟩, Outcome.threw) ∧
    (restoreSnapshot (parseOnly (utf16 "null") ⟨[], [], 0, 0⟩) (fun _ => utf16 "12:00:00")
        (some (utf16 "\x7boops")) ⟨utf16 "int x;", utf16 "notes", 3, []⟩).2
      ≠ Outcome.noSnapshot := by
  decide

/-- C10, amended: for a stored, non-empty snapshot string on which `JSON.parse`
throws, `restoreSnapshot` lets the exception through to its caller and leaves
the editor text, the scratchpad, the cursor and the console text unchanged; an
absent snapshot (`null` or the empty string) gives the "no snapshot" outcome,
with the message in the console and the editor text, scratchpad and cursor
unchanged. -/
theorem restoreSnapshot_corrupted (parse : JStr → Option Snapshot) (time : Nat → JStr)
    (raw : JStr) (ed : Editor) (hraw : raw ≠ []) (hparse : parse raw = none) :
    restoreSnapshot parse time (some raw) ed = (ed, Outcome.threw) ∧
    restoreSnapshot parse time none ed =
      ({ ed with console := utf16 "[Snapshot] No saved state found." }, Outcome.noSnapshot) ∧
    restoreSnapshot parse time (some []) ed =
      ({ ed with console := utf16 "[Snapshot] No saved state found." }, Outcome.noSnapshot) := by
  refine ⟨?_, rfl, rfl⟩
  have : raw.isEmpty = false := by
    cases raw with
    | nil => exact absurd rfl hraw
    | cons _ _ => rfl
  simp [restoreSnapshot, this, hparse]

theorem restoreSnapshot_corrupted_witness :
    restoreSnapshot (parseOnly (utf16 "null") ⟨[], [], 0, 0⟩) (fun _ => utf16 "12:00:00")
        (some (utf16 "\x7b\"code\":")) ⟨utf16 "int x;", utf16 "notes", 3, []⟩
      = (⟨utf16 "int x;", utf16 "notes", 3, []⟩, Outcome.threw) ∧
    restoreSnapshot (parseOnly (utf16 "null") ⟨[], [], 0, 0⟩) (fun _ => utf16 "12:00:00")
        none ⟨utf16 "int x;", utf16 "notes", 3, []⟩ =
      ({ (⟨utf16 "int x;", utf16 "notes", 3, []⟩ : Editor) with
          console := utf16 "[Snapshot] No saved state found." }, Outcome.noSnapshot) ∧
    restoreSnapshot (parseOnly (utf16 "null") ⟨[], [], 0, 0⟩) (fun _ => utf16 "12:00:00")
        (some []) ⟨utf16 "int x;", utf16 "notes", 3, []⟩ =
      ({ (⟨utf16 "int x;", utf16 "notes", 3, []⟩ : Editor) with
          console := utf16 "[Snapshot] No saved state found." }, Outcome.noSnapshot) :=
  restoreSnapshot_corrupted (parseOnly (utf16 "null") ⟨[], [], 0, 0⟩) (fun _ => utf16 "12:00:00")
    (utf16 "\x7b\"code\":") ⟨utf16 "int x;", utf16 "notes", 3, []⟩ (by decide) (by decide)

end CodeEditor
